import Mathlib

/-!
Verification of the text input editing engine of the mycontrol repository
(crates/ui/src/input/state.rs). Text is modelled as a list of characters;
offsets are UTF-8 byte offsets as in the source. External collaborators
(grapheme segmentation from the unicode-segmentation crate, the gpui line
layout) are modelled as parameters or abstract function records. Helper
modules of the input crate that are referenced by state.rs but whose
sources are not available (mask_pattern.rs, history.rs, change.rs,
mode.rs) are modelled from the specification, as marked on each.
-/

namespace MyControl

/-- UTF-8 encoded length of a character, as Rust char::len_utf8. -/
def lenUtf8 (c : Char) : Nat :=
  if c.val.toNat < 0x80 then 1
  else if c.val.toNat < 0x800 then 2
  else if c.val.toNat < 0x10000 then 3
  else 4

/-- UTF-16 encoded length of a character, as Rust char::len_utf16. -/
def lenUtf16 (c : Char) : Nat :=
  if c.val.toNat < 0x10000 then 1 else 2

/-- UTF-8 byte length of a character list, as Rust str::len. -/
def utf8Len : List Char → Nat
  | [] => 0
  | c :: cs => lenUtf8 c + utf8Len cs

/-- UTF-16 code-unit length of a character list. -/
def utf16Len : List Char → Nat
  | [] => 0
  | c :: cs => lenUtf16 c + utf16Len cs

/-- Translation of InputState::offset_to_utf16 (state.rs lines 1744-1757):
walk the characters, stopping as soon as the accumulated UTF-8 count
reaches the requested offset, and return the accumulated UTF-16 count.
The Rust loop carries absolute counters; here the remaining offset is
carried instead, with truncated subtraction matching the break condition
`utf8_count >= offset`. -/
def offsetToUtf16 : List Char → Nat → Nat
  | [], _ => 0
  | c :: cs, o => if o = 0 then 0 else lenUtf16 c + offsetToUtf16 cs (o - lenUtf8 c)

/-- Translation of InputState::offset_from_utf16 (state.rs lines 1729-1742),
the inverse walk of offsetToUtf16. -/
def offsetFromUtf16 : List Char → Nat → Nat
  | [], _ => 0
  | c :: cs, o => if o = 0 then 0 else lenUtf8 c + offsetFromUtf16 cs (o - lenUtf16 c)

/-- All valid UTF-8 byte offsets of a text: the character boundaries,
including 0 and the total length. -/
def utf8Boundaries : List Char → List Nat
  | [] => [0]
  | c :: cs => 0 :: (utf8Boundaries cs).map (fun n => lenUtf8 c + n)

/-- Round trip through UTF-16 and back, as the source composes
range_from_utf16 after range_to_utf16; snaps interior byte offsets to the
next character boundary and is the identity on boundaries. -/
def snapOffset (t : List Char) (o : Nat) : Nat :=
  offsetFromUtf16 t (offsetToUtf16 t o)

/-- Byte-prefix of a character list (exact on character boundaries; the
source slices `&self.text[range]` only at snapped boundaries, where a
non-boundary index would panic). -/
def takeBytes : List Char → Nat → List Char
  | _, 0 => []
  | [], _ => []
  | c :: cs, n => c :: takeBytes cs (n - lenUtf8 c)

/-- Byte-suffix of a character list, companion of takeBytes. -/
def dropBytes : List Char → Nat → List Char
  | l, 0 => l
  | [], _ => []
  | c :: cs, n => dropBytes cs (n - lenUtf8 c)

/-- Translation of InputState::text_for_range_utf8 (state.rs 1901-1904):
the slice of the text at the given byte range, after the range has made
the round trip through UTF-16 (`range_from_utf16(range_to_utf16(range))`). -/
def sliceSnap (t : List Char) (a b : Nat) : List Char :=
  let a2 := snapOffset t a
  let b2 := snapOffset t b
  takeBytes (dropBytes t a2) (b2 - a2)

/-- Translation of InputState::previous_boundary (state.rs 1767-1773)
over the list of grapheme start indices produced by
`text.grapheme_indices(true)` (external unicode-segmentation crate):
last index strictly below the offset, or 0. -/
def previousBoundary (idxs : List Nat) (offset : Nat) : Nat :=
  (idxs.reverse.find? (fun idx => decide (idx < offset))).getD 0

/-- Translation of InputState::next_boundary (state.rs 1775-1780): first
grapheme start index strictly above the offset, or the text length. -/
def nextBoundary (idxs : List Nat) (textLen offset : Nat) : Nat :=
  (idxs.find? (fun idx => decide (offset < idx))).getD textLen

/-- Grapheme start indices of a text given as its list of grapheme
clusters (the segmentation itself is performed by the external
unicode-segmentation crate; representing the text as a cluster list
captures any segmentation): running sum of cluster byte lengths. -/
def graphemeIndicesGo : List (List Char) → Nat → List Nat
  | [], _ => []
  | g :: gs, acc => acc :: graphemeIndicesGo gs (acc + utf8Len g)

def graphemeIndices (t : List (List Char)) : List Nat :=
  graphemeIndicesGo t 0

/-- Total byte length of a cluster list. -/
def clustersLen (t : List (List Char)) : Nat :=
  utf8Len t.flatten

/-- All grapheme boundaries of a cluster text: the start indices plus the
end of the text. -/
def graphemeBoundaries (t : List (List Char)) : List Nat :=
  graphemeIndices t ++ [clustersLen t]

/-- Translation of the is_word helper inside select_word (state.rs
1674-1676): alphanumeric or underscore. Rust char::is_alphanumeric is
defined by the external Unicode character tables, so the alphanumeric
classification is a parameter of the model, exactly like the external
grapheme segmentation; theorems below hold for every classification,
the Unicode one included. -/
def isWord (alnum : Char → Bool) (c : Char) : Bool :=
  alnum c || c = '_'

/-- Modelled from the spec: mask_pattern.rs is not among the provided
sources. Per spec section 4.5 a MaskPattern offers is_valid (token-wise
prefix conformance), mask (inserting literal characters at fixed
positions) and unmask (stripping literals); the model keeps these as an
abstract interface, which is all the verified operations depend on. -/
structure MaskPattern where
  isValid : List Char → Bool
  mask : List Char → List Char
  unmask : List Char → List Char

/-- Modelled from the spec: the default pattern has no template, so every
candidate is accepted and masking is the identity (spec section 3 calls
the pattern optional; `MaskPattern::default()` is used by
`InputState::new`). -/
def MaskPattern.default : MaskPattern :=
  ⟨fun _ => true, id, id⟩

/-- Modelled from the spec: change.rs is not among the provided sources.
A HistoryEntry per spec section 3: old_range, old_text, new_range,
new_text (the timestamp lives in the history grouping state). -/
structure Change where
  oldRange : Nat × Nat
  oldText : List Char
  newRange : Nat × Nat
  newText : List Char
deriving DecidableEq

/-- Modelled from the spec: history.rs is not among the provided sources.
Per spec section 4.4: undo and redo stacks of grouped edits, a grouping
interval within which consecutive pushes coalesce into the top group,
and an ignore flag suppressing recording. Groups are stored
chronologically. -/
structure History where
  undos : List (List Change)
  redos : List (List Change)
  ignore : Bool
  lastTime : Option Nat
  groupInterval : Nat
deriving DecidableEq

/-- Modelled from the spec: pushing clears the redo stack and either
coalesces into the most recent group (when within the grouping interval
of the previous push) or starts a new group. -/
def History.push (h : History) (now : Nat) (c : Change) : History :=
  let undos :=
    match h.lastTime, h.undos with
    | some t, g :: rest =>
      if now - t ≤ h.groupInterval then (g ++ [c]) :: rest else [c] :: g :: rest
    | _, _ => [c] :: h.undos
  { h with undos := undos, redos := [], lastTime := some now }

/-- Modelled from the spec: undo pops the most recent group onto the redo
stack and hands its entries back in reverse order for re-application. -/
def History.undo (h : History) : Option (List Change) × History :=
  match h.undos with
  | [] => (none, h)
  | g :: rest => (some g.reverse, { h with undos := rest, redos := g :: h.redos })

/-- Modelled from the spec: redo is the mirror of undo. -/
def History.redo (h : History) : Option (List Change) × History :=
  match h.redos with
  | [] => (none, h)
  | g :: rest => (some g, { h with redos := rest, undos := g :: h.undos })

/-- Modelled from the spec: mode.rs is not among the provided sources.
Only the variant tags matter for the verified operations (state.rs
branches on is_single_line / is_multi_line); rows, tab size and
highlighter fields are rendering configuration and are omitted. -/
inductive InputMode
  | singleLine
  | multiLine
  | autoGrow
  | codeEditor
deriving DecidableEq

/-- The InputEvent variants reachable from the modelled operations
(state.rs lines 90-98); Change carries the unmasked value. Focus, blur,
enter and escape events belong to unmodelled interaction paths. -/
inductive InputEvent
  | change (value : List Char)
  | emptyTextUp
deriving DecidableEq

/-- Abstract model of a gpui WrappedLine as consumed by state.rs: byte
length, wrap boundary count, and the layout queries position_for_index,
index_for_position (Ok hit or Err fallback index) and
size(line_height).height. The geometry comes from the external layout
service (spec section 6), so the functions are arbitrary; pixels are
modelled as integers. -/
structure LineModel where
  len : Nat
  wrapBoundaries : Nat
  positionForIndex : Nat → Int → Option (Int × Int)
  indexForPosition : Int × Int → Int → Except Nat Nat
  sizeHeight : Int → Int

/-- Stand-in line for out-of-bounds indexing (the Rust source would panic
there; the verified paths never reach it). -/
def dummyLine : LineModel :=
  ⟨0, 0, fun _ _ => none, fun _ _ => Except.error 0, fun _ => 0⟩

structure BoundsModel where
  origin : Int × Int

/-- The editing-relevant fields of InputState (state.rs lines 220-266).
Rendering-only state (blink cursor, scroll handle, text wrapper, loading,
password masking, placeholder) is omitted; the validator closure is an
arbitrary boolean function as in the source. -/
structure InputState where
  mode : InputMode
  text : List Char
  selStart : Nat
  selEnd : Nat
  selectionReversed : Bool
  selectedWordRange : Option (Nat × Nat)
  markedRange : Option (Nat × Nat)
  disabled : Bool
  validate : Option (List Char → Bool)
  maskPattern : MaskPattern
  history : History
  lastLayout : Option (List LineModel)
  lastBounds : Option BoundsModel
  lastLineHeight : Int
  preferredXOffset : Option Int

/-- Translation of line_and_position_for_offset (state.rs 501-521): scan
the lines accumulating the byte offset of each line start and the y
offset, returning the first line whose position_for_index answers. -/
def lineAndPositionGo (lh : Int) :
    List LineModel → Nat → Nat → Nat → Int → Nat × Nat × Option (Int × Int)
  | [], _, _, _, _ => (0, 0, none)
  | line :: rest, offset, lineIndex, prevLinesOffset, yOffset =>
    let localOffset := offset - prevLinesOffset
    match line.positionForIndex localOffset lh with
    | some pos =>
      (lineIndex, ((pos.2 / lh).toNat), some (pos.1, pos.2 + yOffset))
    | none =>
      lineAndPositionGo lh rest offset (lineIndex + 1)
        (prevLinesOffset + line.len + 1) (yOffset + line.sizeHeight lh)

def lineAndPositionForOffset (offset : Nat) (lines : List LineModel) (lh : Int) :
    Nat × Nat × Option (Int × Int) :=
  lineAndPositionGo lh lines offset 0 0 0

/-- Byte offset of the start of line `n`: sum of len + 1 over the
preceding lines (state.rs 595-601). -/
def prevLinesOffsetUpTo (lines : List LineModel) (n : Nat) : Nat :=
  ((lines.take n).map (fun l => l.len + 1)).sum

namespace InputState

def isSingleLine (s : InputState) : Bool :=
  match s.mode with
  | .singleLine => true
  | _ => false

def isMultiLine (s : InputState) : Bool :=
  match s.mode with
  | .multiLine => true
  | .autoGrow => true
  | .codeEditor => true
  | _ => false

/-- Rust Range::is_empty on the selected range. -/
def selectedRangeIsEmpty (s : InputState) : Bool :=
  !(decide (s.selStart < s.selEnd))

/-- Translation of cursor_offset (state.rs 1524-1534). -/
def cursorOffset (s : InputState) : Nat :=
  match s.markedRange with
  | some marked => marked.2
  | none => if s.selectionReversed then s.selStart else s.selEnd

def rangeToUtf16 (s : InputState) (r : Nat × Nat) : Nat × Nat :=
  (offsetToUtf16 s.text r.1, offsetToUtf16 s.text r.2)

def rangeFromUtf16 (s : InputState) (r : Nat × Nat) : Nat × Nat :=
  (offsetFromUtf16 s.text r.1, offsetFromUtf16 s.text r.2)

/-- Translation of update_preferred_x_offset (state.rs 483-498). -/
def updatePreferredX (s : InputState) : InputState :=
  match s.lastLayout, s.lastBounds with
  | some lines, some bounds =>
    match (lineAndPositionForOffset (s.cursorOffset) lines s.lastLineHeight).2.2 with
    | some pos => { s with preferredXOffset := some (pos.1 + bounds.origin.1) }
    | none => s
  | _, _ => s

/-- Translation of move_to (state.rs 1516-1522): clamp into [0, len],
collapse the selection there (blink-cursor handling is visual only). -/
def moveTo (s : InputState) (offset : Nat) : InputState :=
  let offset := min offset (utf8Len s.text)
  updatePreferredX { s with selStart := offset, selEnd := offset }

/-- First block of select_to (state.rs 1640-1645): extend the active end
to the clamped offset. -/
def selectToExtend (s : InputState) (offset : Nat) : InputState :=
  if s.selectionReversed then { s with selStart := offset } else { s with selEnd := offset }

/-- Second block of select_to (state.rs 1647-1650): when the ends cross,
flip `reversed` and swap them. -/
def selectToSwap (s : InputState) : InputState :=
  if s.selEnd < s.selStart then
    { s with selectionReversed := !s.selectionReversed, selStart := s.selEnd, selEnd := s.selStart }
  else s

/-- Third block of select_to (state.rs 1652-1660): widen the selection to
keep any remembered word range selected. -/
def selectToKeepWord (s : InputState) : InputState :=
  match s.selectedWordRange with
  | some wordRange =>
    let s := if s.selStart > wordRange.1 then { s with selStart := wordRange.1 } else s
    if s.selEnd < wordRange.2 then { s with selEnd := wordRange.2 } else s
  | none => s

/-- Translation of select_to (state.rs 1639-1665): clamp into [0, len],
extend the active end, swap on crossing, keep the word range, and update
the preferred column when the selection collapsed. -/
def selectTo (s : InputState) (offset : Nat) : InputState :=
  let s := selectToKeepWord (selectToSwap (selectToExtend s (min offset (utf8Len s.text))))
  if selectedRangeIsEmpty s then updatePreferredX s else s

/-- Translation of select_word (state.rs 1672-1721): walk word characters
left from the offset and right from the offset (the guard
`ix < pre_chars_count` in the source always holds, so each walk is a
takeWhile run); when the resulting range is nonempty, select it and
remember it as selected_word_range. `alnum` supplies the external
Unicode alphanumeric classification used by char::is_alphanumeric. -/
def selectWord (alnum : Char → Bool) (s : InputState) (offset : Nat) : InputState :=
  let prevText := sliceSnap s.text 0 offset
  let nextText := sliceSnap s.text offset (utf8Len s.text)
  let startOff := offset - utf8Len (prevText.reverse.takeWhile (isWord alnum))
  let endOff := offset + utf8Len (nextText.takeWhile (isWord alnum))
  if startOff = endOff then s
  else { s with selStart := startOff, selEnd := endOff,
                selectedWordRange := some (startOff, endOff) }

/-- Translation of is_valid_input (state.rs 1841-1857). -/
def isValidInput (s : InputState) (newText : List Char) : Bool :=
  if newText.isEmpty then true
  else if (match s.validate with | some v => !(v newText) | none => false) then false
  else if !(s.maskPattern.isValid newText) then false
  else true

/-- Translation of push_history (state.rs 1464-1487): skipped when the
history is ignoring; otherwise records old text at the range and the new
range spanning the inserted text. -/
def pushHistory (s : InputState) (range : Nat × Nat) (newText : List Char)
    (now : Nat) : InputState :=
  if s.history.ignore then s
  else
    let oldText := sliceSnap s.text range.1 range.2
    let newRange := (range.1, range.1 + utf8Len newText)
    { s with history := s.history.push now ⟨range, oldText, newRange, newText⟩ }

/-- Target range resolution of replace_text_in_range (state.rs
1961-1965): explicit UTF-16 range, else marked range, else selection. -/
def resolveRange (s : InputState) (rangeUtf16 : Option (Nat × Nat)) : Nat × Nat :=
  match rangeUtf16 with
  | some r => s.rangeFromUtf16 r
  | none =>
    match s.markedRange with
    | some m => m
    | none => (s.selStart, s.selEnd)

/-- The candidate full text `before + new_text + after` (state.rs
1967-1970). -/
def pendingText (s : InputState) (range : Nat × Nat) (newText : List Char) : List Char :=
  sliceSnap s.text 0 range.1 ++ newText ++ sliceSnap s.text range.2 (utf8Len s.text)

/-- Translation of replace_text_in_range (state.rs 1950-1996).
Highlighter, text wrapper, scroll and auto-grow updates are rendering
side effects and are omitted; the emitted Change event carries the
unmasked value. -/
def replaceTextInRange (s : InputState) (rangeUtf16 : Option (Nat × Nat))
    (newText : List Char) (now : Nat) : InputState × List InputEvent :=
  if s.disabled then (s, [])
  else
    let range := s.resolveRange rangeUtf16
    let pending := s.pendingText range newText
    if !(s.isValidInput pending) then (s, [])
    else
      let maskText := s.maskPattern.mask pending
      let newTextLen := (utf8Len newText + utf8Len maskText) - utf8Len pending
      let newPos := min (range.1 + newTextLen) (utf8Len maskText)
      let s := s.pushHistory range newText now
      let s := { s with text := maskText, selStart := newPos, selEnd := newPos,
                        markedRange := none }
      (s, [InputEvent.change (s.maskPattern.unmask maskText)])

/-- Translation of replace_and_mark_text_in_range (state.rs 1999-2048):
same gate, but the pending text is installed unmasked and the marked
range tracks the not-yet-committed span; empty new text cancels the
composition. -/
def replaceAndMarkTextInRange (s : InputState) (rangeUtf16 : Option (Nat × Nat))
    (newText : List Char) (newSelectedRangeUtf16 : Option (Nat × Nat))
    (now : Nat) : InputState × List InputEvent :=
  if s.disabled then (s, [])
  else
    let range := s.resolveRange rangeUtf16
    let pending := s.pendingText range newText
    if !(s.isValidInput pending) then (s, [])
    else
      let s := s.pushHistory range newText now
      let s := { s with text := pending }
      let s :=
        if newText.isEmpty then
          { s with selStart := range.1, selEnd := range.1, markedRange := none }
        else
          let sel :=
            match newSelectedRangeUtf16 with
            | some r16 =>
              let nr := s.rangeFromUtf16 r16
              (nr.1 + range.1, nr.2 + range.2)
            | none => (range.1 + utf8Len newText, range.1 + utf8Len newText)
          { s with selStart := sel.1, selEnd := sel.2,
                   markedRange := some (range.1, range.1 + utf8Len newText) }
      (s, [InputEvent.change (s.maskPattern.unmask s.text)])

/-- Translation of insert (state.rs 660-670): replace at the collapsed
cursor, then collapse the selection to its end. -/
def insert (s : InputState) (t : List Char) (now : Nat) : InputState × List InputEvent :=
  let r16 := s.rangeToUtf16 (s.cursorOffset, s.cursorOffset)
  let res := s.replaceTextInRange (some r16) t now
  ({ res.1 with selStart := res.1.selEnd }, res.2)

/-- Translation of replace (state.rs 675-684). -/
def replace (s : InputState) (t : List Char) (now : Nat) : InputState × List InputEvent :=
  let res := s.replaceTextInRange none t now
  ({ res.1 with selStart := res.1.selEnd }, res.2)

/-- Translation of replace_text (state.rs 686-695): replace the whole
UTF-16 span. -/
def replaceText (s : InputState) (t : List Char) (now : Nat) : InputState × List InputEvent :=
  s.replaceTextInRange (some (0, utf16Len s.text)) t now

/-- Translation of set_value (state.rs 630-649): replace everything with
history recording suppressed, then reset the selection (end for single
line, start otherwise). Scroll reset is a rendering side effect. -/
def setValue (s : InputState) (t : List Char) (now : Nat) : InputState × List InputEvent :=
  let s0 := { s with history := { s.history with ignore := true } }
  let res := s0.replaceText t now
  let s1 := { res.1 with history := { res.1.history with ignore := false } }
  let s2 :=
    if s1.isSingleLine then
      { s1 with selStart := utf8Len s1.text, selEnd := utf8Len s1.text }
    else { s1 with selStart := 0, selEnd := 0 }
  (s2, res.2)

/-- Translation of backspace (state.rs 1123-1129); `seg` supplies the
grapheme start indices of a text (external segmentation). -/
def backspace (seg : List Char → List Nat) (s : InputState) (now : Nat) :
    InputState × List InputEvent :=
  let s :=
    if s.selectedRangeIsEmpty then
      s.selectTo (previousBoundary (seg s.text) s.cursorOffset)
    else s
  s.replaceTextInRange none [] now

/-- Translation of delete (state.rs 1131-1137). -/
def delete (seg : List Char → List Nat) (s : InputState) (now : Nat) :
    InputState × List InputEvent :=
  let s :=
    if s.selectedRangeIsEmpty then
      s.selectTo (nextBoundary (seg s.text) (utf8Len s.text) s.cursorOffset)
    else s
  s.replaceTextInRange none [] now

/-- Translation of paste (state.rs 1453-1462); the clipboard is external,
its current content is passed in (none models an unavailable clipboard). -/
def paste (s : InputState) (clip : Option (List Char)) (now : Nat) :
    InputState × List InputEvent :=
  match clip with
  | none => (s, [])
  | some clipText =>
    let newText := if !s.isMultiLine then clipText.filter (fun c => c != '\n') else clipText
    s.replaceTextInRange none newText now

/-- The change-application loop of undo (state.rs 1492-1496): each entry
re-applies old_text at new_range, accumulating the emitted events. -/
def undoApply (p : InputState × List InputEvent) (changes : List Change) :
    InputState × List InputEvent :=
  changes.foldl
    (fun (acc : InputState × List InputEvent) (c : Change) =>
      let r := acc.1.replaceTextInRange (some (acc.1.rangeToUtf16 c.newRange)) c.oldText 0
      (r.1, acc.2 ++ r.2))
    p

/-- The change-application loop of redo (state.rs 1503-1507): each entry
re-applies new_text at old_range. -/
def redoApply (p : InputState × List InputEvent) (changes : List Change) :
    InputState × List InputEvent :=
  changes.foldl
    (fun (acc : InputState × List InputEvent) (c : Change) =>
      let r := acc.1.replaceTextInRange (some (acc.1.rangeToUtf16 c.oldRange)) c.newText 0
      (r.1, acc.2 ++ r.2))
    p

/-- Translation of undo (state.rs 1489-1498): with recording suppressed,
pop the most recent group and re-apply each entry old_text at its
new_range. -/
def undo (s : InputState) : InputState × List InputEvent :=
  let s0 := { s with history := { s.history with ignore := true } }
  let popped := s0.history.undo
  let s1 := { s0 with history := popped.2 }
  let applied :=
    match popped.1 with
    | none => (s1, ([] : List InputEvent))
    | some changes => undoApply (s1, []) changes
  ({ applied.1 with history := { applied.1.history with ignore := false } }, applied.2)

/-- Translation of redo (state.rs 1500-1509), the mirror of undo. -/
def redo (s : InputState) : InputState × List InputEvent :=
  let s0 := { s with history := { s.history with ignore := true } }
  let popped := s0.history.redo
  let s1 := { s0 with history := popped.2 }
  let applied :=
    match popped.1 with
    | none => (s1, ([] : List InputEvent))
    | some changes => redoApply (s1, []) changes
  ({ applied.1 with history := { applied.1.history with ignore := false } }, applied.2)

/-- Translation of move_vertical (state.rs 525-607). Pixels are integers;
out-of-bounds line indexing (which would panic in Rust) yields dummyLine
and is unreachable on the verified paths. -/
def moveVertical (s : InputState) (direction : Int) : InputState :=
  if s.isSingleLine then s
  else
    match s.lastLayout, s.lastBounds with
    | some lines, some bounds =>
      let offset := s.cursorOffset
      let lh := s.lastLineHeight
      let res := lineAndPositionForOffset offset lines lh
      let currentLineIndex := res.1
      let currentSubLine := res.2.1
      match res.2.2 with
      | none => s
      | some currentPos =>
        let currentX := s.preferredXOffset.getD (currentPos.1 + bounds.origin.1)
        let newSubLine : Int := (currentSubLine : Int) + direction
        if direction = -1 ∧ currentLineIndex = 0 ∧ newSubLine < 0 then s.moveTo 0
        else
          let adjusted :=
            if newSubLine < 0 then
              if currentLineIndex > 0 then
                (currentLineIndex - 1,
                 ((lines.getD (currentLineIndex - 1) dummyLine).wrapBoundaries : Int))
              else (currentLineIndex, (0 : Int))
            else
              let maxSubLine : Int := ((lines.getD currentLineIndex dummyLine).wrapBoundaries : Int)
              if newSubLine > maxSubLine then
                if currentLineIndex < lines.length - 1 then (currentLineIndex + 1, (0 : Int))
                else (currentLineIndex, maxSubLine)
              else (currentLineIndex, newSubLine)
          if adjusted.1 = currentLineIndex ∧ adjusted.2 = (currentSubLine : Int) then s
          else
            let targetLine := lines.getD adjusted.1 dummyLine
            let lineX := currentX - bounds.origin.1
            let targetSubLine := adjusted.2.toNat
            let approxPos := (lineX, (targetSubLine : Int) * lh)
            let newLocalIndex :=
              match targetLine.indexForPosition approxPos lh with
              | .ok i => i + 1
              | .error i => i
            let newOffset := min (prevLinesOffsetUpTo lines adjusted.1 + newLocalIndex)
              (utf8Len s.text)
            { s with selStart := newOffset, selEnd := newOffset }
    | _, _ => s

/-- Translation of up (state.rs 788-806): emit EmptyTextUp when the text
is empty, return in single-line mode, collapse a nonempty selection to
just before its start, then move vertically by -1. -/
def up (seg : List Char → List Nat) (s : InputState) : InputState × List InputEvent :=
  let events := if s.text.isEmpty then [InputEvent.emptyTextUp] else []
  if s.isSingleLine then (s, events)
  else
    let s :=
      if !s.selectedRangeIsEmpty then
        s.moveTo (previousBoundary (seg s.text) (s.selStart - 1))
      else s
    (s.moveVertical (-1), events)

/-- Translation of down (state.rs 808-823): return in single-line mode,
collapse a nonempty selection to just before its end, then move
vertically by +1. No event is ever emitted. -/
def down (seg : List Char → List Nat) (s : InputState) : InputState × List InputEvent :=
  if s.isSingleLine then (s, [])
  else
    let s :=
      if !s.selectedRangeIsEmpty then
        s.moveTo (nextBoundary (seg s.text) (utf8Len s.text) (s.selEnd - 1))
      else s
    (s.moveVertical 1, [])

end InputState

/-- A movement or selection command, for stating properties of arbitrary
command sequences. -/
inductive SelCmd
  | moveTo (offset : Nat)
  | selectTo (offset : Nat)

def applySelCmd (s : InputState) : SelCmd → InputState
  | .moveTo o => s.moveTo o
  | .selectTo o => s.selectTo o

def applySelCmds (s : InputState) (cmds : List SelCmd) : InputState :=
  cmds.foldl applySelCmd s

/-- The remembered word range, when present, ends within the text. -/
def wordRangeOk (s : InputState) : Bool :=
  match s.selectedWordRange with
  | none => true
  | some wr => decide (wr.2 ≤ utf8Len s.text)

/-- The selection invariant of spec section 3 together with word-range
well-formedness. -/
def SelInvariant (s : InputState) : Prop :=
  s.selStart ≤ s.selEnd ∧ s.selEnd ≤ utf8Len s.text ∧ wordRangeOk s = true

/-- The initial editing state per InputState::new (state.rs 299-335):
empty text, collapsed selection at 0, nothing marked, enabled, no
validator, default mask pattern, empty history with a one second group
interval, no layout yet. -/
def initialInputState : InputState :=
  { mode := .singleLine, text := [], selStart := 0, selEnd := 0,
    selectionReversed := false, selectedWordRange := none, markedRange := none,
    disabled := false, validate := none, maskPattern := MaskPattern.default,
    history := { undos := [], redos := [], ignore := false, lastTime := none,
                 groupInterval := 1000 },
    lastLayout := none, lastBounds := none, lastLineHeight := 20,
    preferredXOffset := none }

/-- Grapheme segmentation used at concrete inputs below: every character
is its own cluster, which matches extended grapheme segmentation on
those ASCII texts. -/
def charSeg (t : List Char) : List Nat :=
  (utf8Boundaries t).dropLast

/-- Concrete states used by the claim theorems and witnesses below. -/
def c1RejectAll : InputState :=
  { initialInputState with validate := some (fun _ => false) }

def c4Start : InputState :=
  { initialInputState with text := ("ab").toList, selStart := 2, selEnd := 2 }

def c4AfterInsert : InputState :=
  (c4Start.replaceTextInRange (some (2, 2)) (("c").toList) 5).1

def c4AfterUndo : InputState := c4AfterInsert.undo.1

def c4AfterRedo : InputState := c4AfterUndo.redo.1

def c5Disabled : InputState :=
  { initialInputState with text := ("ab").toList, selStart := 0, selEnd := 2,
                           disabled := true }

def c3Stale : InputState :=
  { initialInputState with selectedWordRange := some (3, 7) }

def c3Start : InputState := { initialInputState with text := ("ab").toList }

def c6Compose : InputState :=
  (initialInputState.replaceAndMarkTextInRange (some (0, 0)) (("あ").toList) none 0).1

def c6Commit : InputState :=
  (c6Compose.replaceTextInRange none (("あ").toList) 1).1

def c7State : InputState := { initialInputState with text := ("hello world").toList }

def c8Text : List (List Char) := [[ 'a' ], [ 'b' ]]

def c9Line : LineModel :=
  ⟨0, 0, fun _ _ => some (0, 0), fun _ _ => Except.error 0, fun lh => lh⟩

def c9Empty : InputState :=
  { initialInputState with mode := .autoGrow, lastLayout := some [c9Line],
                           lastBounds := some ⟨(0, 0)⟩ }

def c9WitLine : LineModel :=
  ⟨1, 0, fun i _ => if i ≤ 1 then some ((i : Int), 0) else none,
    fun _ _ => Except.error 0, fun lh => lh⟩

def c9WitState : InputState :=
  { initialInputState with mode := .multiLine, text := ("a").toList,
                           selStart := 1, selEnd := 1,
                           lastLayout := some [c9WitLine], lastBounds := some ⟨(0, 0)⟩ }


/-! ## Theorems -/

theorem lenUtf8_pos (c : Char) : 0 < lenUtf8 c := by
  unfold lenUtf8
  split <;> simp_all
  split <;> simp_all
  split <;> simp_all

theorem lenUtf16_pos (c : Char) : 0 < lenUtf16 c := by
  unfold lenUtf16
  split <;> simp_all

theorem offsetToUtf16_zero (t : List Char) : offsetToUtf16 t 0 = 0 := by
  cases t <;> simp [offsetToUtf16]

theorem offsetFromUtf16_zero (t : List Char) : offsetFromUtf16 t 0 = 0 := by
  cases t <;> simp [offsetFromUtf16]

/-- On a character boundary, offset_to_utf16 returns the UTF-16 length of
the corresponding prefix. -/
theorem offsetToUtf16_append (pre post : List Char) :
    offsetToUtf16 (pre ++ post) (utf8Len pre) = utf16Len pre := by
  induction pre with
  | nil => simpa [utf8Len, utf16Len] using offsetToUtf16_zero post
  | cons c cs ih =>
    have hc := lenUtf8_pos c
    have hne : lenUtf8 c + utf8Len cs ≠ 0 := by omega
    simp [offsetToUtf16, utf8Len, utf16Len, hne, Nat.add_sub_cancel_left, ih]

/-- On a UTF-16 prefix length, offset_from_utf16 returns the UTF-8 length
of the corresponding prefix. -/
theorem offsetFromUtf16_append (pre post : List Char) :
    offsetFromUtf16 (pre ++ post) (utf16Len pre) = utf8Len pre := by
  induction pre with
  | nil => simpa [utf8Len, utf16Len] using offsetFromUtf16_zero post
  | cons c cs ih =>
    have hc := lenUtf16_pos c
    have hne : lenUtf16 c + utf16Len cs ≠ 0 := by omega
    simp [offsetFromUtf16, utf8Len, utf16Len, hne, Nat.add_sub_cancel_left, ih]

/-- Membership in utf8Boundaries means the offset splits the text. -/
theorem utf8Boundaries_mem {t : List Char} {o : Nat} (h : o ∈ utf8Boundaries t) :
    ∃ pre post, t = pre ++ post ∧ o = utf8Len pre := by
  induction t generalizing o with
  | nil =>
    simp [utf8Boundaries] at h
    exact ⟨[], [], by simp, by simp [utf8Len, h]⟩
  | cons c cs ih =>
    simp [utf8Boundaries] at h
    rcases h with h0 | ⟨n, hn, rfl⟩
    · exact ⟨[], c :: cs, by simp, by simp [utf8Len, h0]⟩
    · obtain ⟨pre, post, hsplit, hlen⟩ := ih hn
      exact ⟨c :: pre, post, by simp [hsplit], by simp [utf8Len, hlen]⟩

/-- Round trip on character boundaries (helper shared by several claims). -/
theorem offset_roundtrip (t : List Char) (o : Nat) (h : o ∈ utf8Boundaries t) :
    offsetFromUtf16 t (offsetToUtf16 t o) = o := by
  obtain ⟨pre, post, rfl, rfl⟩ := utf8Boundaries_mem h
  rw [offsetToUtf16_append, offsetFromUtf16_append]

theorem updatePreferredX_eq (s : InputState) :
    ∃ px, s.updatePreferredX = { s with preferredXOffset := px } := by
  unfold InputState.updatePreferredX
  split
  · split
    · exact ⟨_, rfl⟩
    · exact ⟨s.preferredXOffset, rfl⟩
  · exact ⟨s.preferredXOffset, rfl⟩

theorem updatePreferredX_text (s : InputState) : s.updatePreferredX.text = s.text := by
  obtain ⟨px, h⟩ := updatePreferredX_eq s
  simp [h]

theorem updatePreferredX_selStart (s : InputState) :
    s.updatePreferredX.selStart = s.selStart := by
  obtain ⟨px, h⟩ := updatePreferredX_eq s
  simp [h]

theorem updatePreferredX_selEnd (s : InputState) :
    s.updatePreferredX.selEnd = s.selEnd := by
  obtain ⟨px, h⟩ := updatePreferredX_eq s
  simp [h]

theorem updatePreferredX_selectedWordRange (s : InputState) :
    s.updatePreferredX.selectedWordRange = s.selectedWordRange := by
  obtain ⟨px, h⟩ := updatePreferredX_eq s
  simp [h]

theorem updatePreferredX_markedRange (s : InputState) :
    s.updatePreferredX.markedRange = s.markedRange := by
  obtain ⟨px, h⟩ := updatePreferredX_eq s
  simp [h]

theorem updatePreferredX_history (s : InputState) :
    s.updatePreferredX.history = s.history := by
  obtain ⟨px, h⟩ := updatePreferredX_eq s
  simp [h]

theorem updatePreferredX_disabled (s : InputState) :
    s.updatePreferredX.disabled = s.disabled := by
  obtain ⟨px, h⟩ := updatePreferredX_eq s
  simp [h]

theorem updatePreferredX_mode (s : InputState) :
    s.updatePreferredX.mode = s.mode := by
  obtain ⟨px, h⟩ := updatePreferredX_eq s
  simp [h]

theorem moveTo_eq (s : InputState) (o : Nat) :
    ∃ px, s.moveTo o = { s with selStart := min o (utf8Len s.text),
                                selEnd := min o (utf8Len s.text),
                                preferredXOffset := px } := by
  unfold InputState.moveTo
  exact updatePreferredX_eq _

theorem selectToExtend_fields (s : InputState) (o : Nat) :
    (InputState.selectToExtend s o).text = s.text ∧
    (InputState.selectToExtend s o).markedRange = s.markedRange ∧
    (InputState.selectToExtend s o).history = s.history ∧
    (InputState.selectToExtend s o).disabled = s.disabled ∧
    (InputState.selectToExtend s o).mode = s.mode ∧
    (InputState.selectToExtend s o).selectedWordRange = s.selectedWordRange := by
  unfold InputState.selectToExtend
  split <;> simp

theorem selectToExtend_bounds (s : InputState) (o : Nat) (L : Nat)
    (h0 : o ≤ L) (h1 : s.selStart ≤ L) (h2 : s.selEnd ≤ L) :
    (InputState.selectToExtend s o).selStart ≤ L ∧
    (InputState.selectToExtend s o).selEnd ≤ L := by
  unfold InputState.selectToExtend
  split <;> simp_all

theorem selectToSwap_fields (s : InputState) :
    (InputState.selectToSwap s).text = s.text ∧
    (InputState.selectToSwap s).markedRange = s.markedRange ∧
    (InputState.selectToSwap s).history = s.history ∧
    (InputState.selectToSwap s).disabled = s.disabled ∧
    (InputState.selectToSwap s).mode = s.mode ∧
    (InputState.selectToSwap s).selectedWordRange = s.selectedWordRange := by
  unfold InputState.selectToSwap
  split <;> simp

theorem selectToSwap_le (s : InputState) :
    (InputState.selectToSwap s).selStart ≤ (InputState.selectToSwap s).selEnd := by
  unfold InputState.selectToSwap
  split
  · simp
    omega
  · omega

theorem selectToSwap_bounds (s : InputState) (L : Nat)
    (h1 : s.selStart ≤ L) (h2 : s.selEnd ≤ L) :
    (InputState.selectToSwap s).selStart ≤ L ∧
    (InputState.selectToSwap s).selEnd ≤ L := by
  unfold InputState.selectToSwap
  split <;> simp_all

theorem selectToKeepWord_fields (s : InputState) :
    (InputState.selectToKeepWord s).text = s.text ∧
    (InputState.selectToKeepWord s).markedRange = s.markedRange ∧
    (InputState.selectToKeepWord s).history = s.history ∧
    (InputState.selectToKeepWord s).disabled = s.disabled ∧
    (InputState.selectToKeepWord s).mode = s.mode ∧
    (InputState.selectToKeepWord s).selectedWordRange = s.selectedWordRange := by
  unfold InputState.selectToKeepWord
  split
  · dsimp only
    split <;> split <;> simp_all
  · simp

theorem selectToKeepWord_le (s : InputState) (h : s.selStart ≤ s.selEnd) :
    (InputState.selectToKeepWord s).selStart ≤ (InputState.selectToKeepWord s).selEnd := by
  unfold InputState.selectToKeepWord
  split
  · dsimp only
    split <;> split <;> simp_all <;> omega
  · exact h

theorem selectToKeepWord_end_le (s : InputState) (L : Nat) (hL : L = utf8Len s.text)
    (h2 : s.selEnd ≤ L) (h3 : wordRangeOk s = true) :
    (InputState.selectToKeepWord s).selEnd ≤ L := by
  unfold wordRangeOk at h3
  unfold InputState.selectToKeepWord
  split
  · dsimp only
    rename_i wr hwr
    rw [hwr] at h3
    simp at h3
    split <;> split <;> simp_all <;> omega
  · exact h2

theorem selectToKeepWord_word (s : InputState) (wr : Nat × Nat)
    (h : s.selectedWordRange = some wr) :
    (InputState.selectToKeepWord s).selStart ≤ wr.1 ∧
    wr.2 ≤ (InputState.selectToKeepWord s).selEnd := by
  unfold InputState.selectToKeepWord
  rw [h]
  dsimp only
  split <;> split <;> simp_all <;> omega

/-- select_to changes only the selection ends, the reversed flag and the
preferred column. -/
theorem selectTo_fieldwise (s : InputState) (o : Nat) :
    (s.selectTo o).text = s.text ∧ (s.selectTo o).markedRange = s.markedRange ∧
    (s.selectTo o).history = s.history ∧ (s.selectTo o).disabled = s.disabled ∧
    (s.selectTo o).mode = s.mode ∧
    (s.selectTo o).selectedWordRange = s.selectedWordRange := by
  obtain ⟨a1, b1, c1, d1, m1, w1⟩ := selectToExtend_fields s (min o (utf8Len s.text))
  obtain ⟨a2, b2, c2, d2, m2, w2⟩ :=
    selectToSwap_fields (InputState.selectToExtend s (min o (utf8Len s.text)))
  obtain ⟨a3, b3, c3, d3, m3, w3⟩ := selectToKeepWord_fields
    (InputState.selectToSwap (InputState.selectToExtend s (min o (utf8Len s.text))))
  unfold InputState.selectTo
  dsimp only
  split
  · exact ⟨by rw [updatePreferredX_text, a3, a2, a1],
      by rw [updatePreferredX_markedRange, b3, b2, b1],
      by rw [updatePreferredX_history, c3, c2, c1],
      by rw [updatePreferredX_disabled, d3, d2, d1],
      by rw [updatePreferredX_mode, m3, m2, m1],
      by rw [updatePreferredX_selectedWordRange, w3, w2, w1]⟩
  · exact ⟨by rw [a3, a2, a1], by rw [b3, b2, b1], by rw [c3, c2, c1],
      by rw [d3, d2, d1], by rw [m3, m2, m1], by rw [w3, w2, w1]⟩

/-- After select_to, the selection invariant start <= end holds. -/
theorem selectTo_start_le_end (s : InputState) (o : Nat) :
    (s.selectTo o).selStart ≤ (s.selectTo o).selEnd := by
  have e2 := selectToSwap_le (InputState.selectToExtend s (min o (utf8Len s.text)))
  have e3 := selectToKeepWord_le
    (InputState.selectToSwap (InputState.selectToExtend s (min o (utf8Len s.text)))) e2
  unfold InputState.selectTo
  dsimp only
  split
  · simpa [updatePreferredX_selStart, updatePreferredX_selEnd] using e3
  · exact e3

/-- After select_to, the selection end stays within the text when the
state was well formed. -/
theorem selectTo_end_le_len (s : InputState) (o : Nat)
    (h1 : s.selStart ≤ utf8Len s.text) (h2 : s.selEnd ≤ utf8Len s.text)
    (h3 : wordRangeOk s = true) :
    (s.selectTo o).selEnd ≤ utf8Len (s.selectTo o).text := by
  have ht : (s.selectTo o).text = s.text := (selectTo_fieldwise s o).1
  rw [ht]
  have f1 := selectToExtend_fields s (min o (utf8Len s.text))
  have f2 := selectToSwap_fields (InputState.selectToExtend s (min o (utf8Len s.text)))
  have b1 := selectToExtend_bounds s (min o (utf8Len s.text)) (utf8Len s.text)
    (Nat.min_le_right _ _) h1 h2
  have b2 := selectToSwap_bounds (InputState.selectToExtend s (min o (utf8Len s.text)))
    (utf8Len s.text) b1.1 b1.2
  have hok2 : wordRangeOk
      (InputState.selectToSwap (InputState.selectToExtend s (min o (utf8Len s.text)))) = true := by
    unfold wordRangeOk at h3 ⊢
    rw [f2.2.2.2.2.2, f1.2.2.2.2.2, f2.1, f1.1]
    exact h3
  have hL2 : utf8Len s.text = utf8Len
      (InputState.selectToSwap (InputState.selectToExtend s (min o (utf8Len s.text)))).text := by
    rw [f2.1, f1.1]
  have b3 := selectToKeepWord_end_le
    (InputState.selectToSwap (InputState.selectToExtend s (min o (utf8Len s.text))))
    (utf8Len s.text) hL2 b2.2 hok2
  unfold InputState.selectTo
  dsimp only
  split
  · simpa [updatePreferredX_selEnd] using b3
  · exact b3

/-- After select_to, a remembered word range stays inside the selection. -/
theorem selectTo_word_bounds (s : InputState) (o : Nat) (wr : Nat × Nat)
    (h : s.selectedWordRange = some wr) :
    (s.selectTo o).selStart ≤ wr.1 ∧ wr.2 ≤ (s.selectTo o).selEnd := by
  have f1 := selectToExtend_fields s (min o (utf8Len s.text))
  have f2 := selectToSwap_fields (InputState.selectToExtend s (min o (utf8Len s.text)))
  have hw2 : (InputState.selectToSwap
      (InputState.selectToExtend s (min o (utf8Len s.text)))).selectedWordRange = some wr := by
    rw [f2.2.2.2.2.2, f1.2.2.2.2.2, h]
  have b3 := selectToKeepWord_word
    (InputState.selectToSwap (InputState.selectToExtend s (min o (utf8Len s.text)))) wr hw2
  unfold InputState.selectTo
  dsimp only
  split
  · simpa [updatePreferredX_selStart, updatePreferredX_selEnd] using b3
  · exact b3

theorem replaceTextInRange_disabled (s : InputState) (h : s.disabled = true)
    (r16 : Option (Nat × Nat)) (t : List Char) (now : Nat) :
    s.replaceTextInRange r16 t now = (s, []) := by
  unfold InputState.replaceTextInRange
  simp [h]

theorem replaceAndMark_disabled (s : InputState) (h : s.disabled = true)
    (r16 : Option (Nat × Nat)) (t : List Char) (nsel : Option (Nat × Nat)) (now : Nat) :
    s.replaceAndMarkTextInRange r16 t nsel now = (s, []) := by
  unfold InputState.replaceAndMarkTextInRange
  simp [h]

theorem undoApply_disabled (chs : List Change) (st : InputState)
    (h : st.disabled = true) (evs : List InputEvent) :
    InputState.undoApply (st, evs) chs = (st, evs) := by
  induction chs generalizing evs with
  | nil => rfl
  | cons c rest ih =>
    unfold InputState.undoApply
    rw [List.foldl_cons]
    dsimp only
    rw [replaceTextInRange_disabled st h]
    dsimp only
    rw [List.append_nil]
    exact ih evs

theorem redoApply_disabled (chs : List Change) (st : InputState)
    (h : st.disabled = true) (evs : List InputEvent) :
    InputState.redoApply (st, evs) chs = (st, evs) := by
  induction chs generalizing evs with
  | nil => rfl
  | cons c rest ih =>
    unfold InputState.redoApply
    rw [List.foldl_cons]
    dsimp only
    rw [replaceTextInRange_disabled st h]
    dsimp only
    rw [List.append_nil]
    exact ih evs

theorem history_set_ignore_false (h : History) (hig : h.ignore = false) :
    { h with ignore := false } = h := by
  cases h
  simp_all

/-- Claim C2: for every byte offset on a character boundary of the
current text, offset_from_utf16 after offset_to_utf16 is the identity. -/
theorem c2_offset_utf16_roundtrip (t : List Char) (o : Nat)
    (h : o ∈ utf8Boundaries t) :
    offsetFromUtf16 t (offsetToUtf16 t o) = o :=
  offset_roundtrip t o h

/-- Witness for C2 at the text aあ😀 and the boundary offset 4. -/
theorem c2_offset_utf16_roundtrip_witness :
    4 ∈ utf8Boundaries (("aあ😀").toList) ∧
      offsetFromUtf16 (("aあ😀").toList) (offsetToUtf16 (("aあ😀").toList) 4) = 4 :=
  ⟨by decide, c2_offset_utf16_roundtrip (("aあ😀").toList) 4 (by decide)⟩

/-- Claim C1: a replace_text_in_range call (explicit UTF-16 range, marked
range or current selection target) on a disabled widget, or whose
resulting full text is rejected by the validator or the mask pattern, is
a complete no-op: the state (text, selected_range, marked_range,
history) is returned unchanged and no change event is emitted. -/
theorem c1_invalid_replace_is_noop (s : InputState) (rangeUtf16 : Option (Nat × Nat))
    (newText : List Char) (now : Nat)
    (h : s.disabled = true ∨
      s.isValidInput (s.pendingText (s.resolveRange rangeUtf16) newText) = false) :
    s.replaceTextInRange rangeUtf16 newText now = (s, []) := by
  rcases h with h | h
  · exact replaceTextInRange_disabled s h rangeUtf16 newText now
  · by_cases hd : s.disabled = true
    · exact replaceTextInRange_disabled s hd rangeUtf16 newText now
    · simp only [Bool.not_eq_true] at hd
      unfold InputState.replaceTextInRange
      simp [hd, h]

/-- Witness for C1: a validator that rejects everything makes a one
character insertion at the empty selection a no-op. -/
theorem c1_invalid_replace_is_noop_witness :
    c1RejectAll.isValidInput
        (c1RejectAll.pendingText (c1RejectAll.resolveRange none) (("x").toList)) = false ∧
      c1RejectAll.replaceTextInRange none (("x").toList) 0 = (c1RejectAll, []) :=
  ⟨rfl, c1_invalid_replace_is_noop c1RejectAll none (("x").toList) 0 (Or.inr rfl)⟩

/-- Claim C4: from text ab with the cursor at 2 and empty history,
inserting c at offset 2 and undoing restores ab with selection 2..2, and
redoing restores abc; the undo and redo definitions re-apply old_text at
new_range and mirror it, as the spec describes. -/
theorem c4_undo_redo_scenario :
    c4AfterInsert.text = ("abc").toList ∧
    c4AfterUndo.text = ("ab").toList ∧
    c4AfterUndo.selStart = 2 ∧ c4AfterUndo.selEnd = 2 ∧
    c4AfterRedo.text = ("abc").toList := by
  decide

/-- Counterexample to claim C5 as stated: on a disabled widget with
selection 0..2, insert still collapses the selection to 2..2, so not
every mutating operation leaves the selection unchanged. -/
theorem c5_counterexample :
    c5Disabled.disabled = true ∧ c5Disabled.selStart = 0 ∧
      (c5Disabled.insert (("x").toList) 0).1.selStart = 2 := by
  decide

/-- Claim C5 (amended): when the widget is disabled, the two core entry
points and paste are complete no-ops; every other listed operation
leaves the buffer text and marked range unchanged, but insert, replace,
set_value, backspace and delete may still move the selection, and undo
and redo still move groups between the history stacks (text, selection
and marked range stay unchanged). -/
theorem c5_amended_disabled_noops (s : InputState) (hd : s.disabled = true)
    (hig : s.history.ignore = false) :
    (∀ r16 t now, s.replaceTextInRange r16 t now = (s, [])) ∧
    (∀ r16 t nsel now, s.replaceAndMarkTextInRange r16 t nsel now = (s, [])) ∧
    (∀ clip now, s.paste clip now = (s, [])) ∧
    (∀ t now, (s.insert t now).1.text = s.text ∧
      (s.insert t now).1.markedRange = s.markedRange ∧
      (s.insert t now).1.history = s.history ∧ (s.insert t now).2 = []) ∧
    (∀ t now, (s.replace t now).1.text = s.text ∧
      (s.replace t now).1.markedRange = s.markedRange ∧
      (s.replace t now).1.history = s.history ∧ (s.replace t now).2 = []) ∧
    (∀ t now, (s.setValue t now).1.text = s.text ∧
      (s.setValue t now).1.markedRange = s.markedRange ∧
      (s.setValue t now).1.history = s.history ∧ (s.setValue t now).2 = []) ∧
    (∀ seg now, (InputState.backspace seg s now).1.text = s.text ∧
      (InputState.backspace seg s now).1.markedRange = s.markedRange ∧
      (InputState.backspace seg s now).1.history = s.history ∧
      (InputState.backspace seg s now).2 = []) ∧
    (∀ seg now, (InputState.delete seg s now).1.text = s.text ∧
      (InputState.delete seg s now).1.markedRange = s.markedRange ∧
      (InputState.delete seg s now).1.history = s.history ∧
      (InputState.delete seg s now).2 = []) ∧
    (s.undo.1.text = s.text ∧ s.undo.1.selStart = s.selStart ∧
      s.undo.1.selEnd = s.selEnd ∧ s.undo.1.markedRange = s.markedRange ∧
      s.undo.2 = []) ∧
    (s.redo.1.text = s.text ∧ s.redo.1.selStart = s.selStart ∧
      s.redo.1.selEnd = s.selEnd ∧ s.redo.1.markedRange = s.markedRange ∧
      s.redo.2 = []) := by
  refine ⟨?_, ?_, ?_, ?_, ?_, ?_, ?_, ?_, ?_, ?_⟩
  · exact fun r16 t now => replaceTextInRange_disabled s hd r16 t now
  · exact fun r16 t nsel now => replaceAndMark_disabled s hd r16 t nsel now
  · intro clip now
    cases clip with
    | none => rfl
    | some t => simp [InputState.paste, replaceTextInRange_disabled s hd]
  · intro t now
    simp [InputState.insert, replaceTextInRange_disabled s hd]
  · intro t now
    simp [InputState.replace, replaceTextInRange_disabled s hd]
  · intro t now
    have hd0 : ({ s with history := { s.history with ignore := true } } : InputState).disabled
        = true := hd
    have hh : ({ { s.history with ignore := true } with ignore := false } : History)
        = s.history := history_set_ignore_false s.history hig
    unfold InputState.setValue InputState.replaceText
    dsimp only
    rw [replaceTextInRange_disabled _ hd0]
    dsimp only
    split <;> simp [hh]
  · intro seg now
    by_cases hsel : s.selectedRangeIsEmpty = true
    · have hf := selectTo_fieldwise s (previousBoundary (seg s.text) s.cursorOffset)
      have hd2 : (s.selectTo (previousBoundary (seg s.text) s.cursorOffset)).disabled = true := by
        rw [hf.2.2.2.1]
        exact hd
      unfold InputState.backspace
      rw [if_pos hsel, replaceTextInRange_disabled _ hd2]
      exact ⟨hf.1, hf.2.1, hf.2.2.1, rfl⟩
    · unfold InputState.backspace
      rw [if_neg hsel, replaceTextInRange_disabled s hd]
      exact ⟨rfl, rfl, rfl, rfl⟩
  · intro seg now
    by_cases hsel : s.selectedRangeIsEmpty = true
    · have hf := selectTo_fieldwise s
        (nextBoundary (seg s.text) (utf8Len s.text) s.cursorOffset)
      have hd2 : (s.selectTo
          (nextBoundary (seg s.text) (utf8Len s.text) s.cursorOffset)).disabled = true := by
        rw [hf.2.2.2.1]
        exact hd
      unfold InputState.delete
      rw [if_pos hsel, replaceTextInRange_disabled _ hd2]
      exact ⟨hf.1, hf.2.1, hf.2.2.1, rfl⟩
    · unfold InputState.delete
      rw [if_neg hsel, replaceTextInRange_disabled s hd]
      exact ⟨rfl, rfl, rfl, rfl⟩
  · unfold InputState.undo History.undo
    dsimp only
    cases hu : s.history.undos with
    | nil => simp
    | cons g rest =>
      dsimp only
      rw [undoApply_disabled g.reverse]
      · simp
      · exact hd
  · unfold InputState.redo History.redo
    dsimp only
    cases hu : s.history.redos with
    | nil => simp
    | cons g rest =>
      dsimp only
      rw [redoApply_disabled g]
      · simp
      · exact hd

theorem pushHistory_eq (s : InputState) (range : Nat × Nat) (t : List Char) (now : Nat) :
    ∃ h2, s.pushHistory range t now = { s with history := h2 } := by
  unfold InputState.pushHistory
  split
  · exact ⟨s.history, rfl⟩
  · exact ⟨_, rfl⟩

theorem moveTo_selInvariant (s : InputState) (o : Nat) (h : SelInvariant s) :
    SelInvariant (s.moveTo o) := by
  obtain ⟨h1, h2, h3⟩ := h
  obtain ⟨px, he⟩ := moveTo_eq s o
  unfold SelInvariant
  rw [he]
  refine ⟨Nat.le_refl _, Nat.min_le_right _ _, ?_⟩
  unfold wordRangeOk at h3 ⊢
  simpa using h3

theorem selectTo_selInvariant (s : InputState) (o : Nat) (h : SelInvariant s) :
    SelInvariant (s.selectTo o) := by
  obtain ⟨h1, h2, h3⟩ := h
  refine ⟨selectTo_start_le_end s o, selectTo_end_le_len s o (Nat.le_trans h1 h2) h2 h3, ?_⟩
  have hf := selectTo_fieldwise s o
  unfold wordRangeOk at h3 ⊢
  rw [hf.2.2.2.2.2, hf.1]
  exact h3

/-- Counterexample to claim C3 as stated: a state whose selected range
satisfies the stated precondition but carries a stale selected_word_range
reaching past the text; one select_to then leaves selected_range.end
beyond text.len(), because the word-range widening is not clamped. -/
theorem c3_counterexample :
    (c3Stale.selStart ≤ c3Stale.selEnd ∧ c3Stale.selEnd ≤ utf8Len c3Stale.text) ∧
      ¬ ((applySelCmds c3Stale [SelCmd.selectTo 0]).selEnd ≤
          utf8Len (applySelCmds c3Stale [SelCmd.selectTo 0]).text) := by
  decide

/-- Claim C3 (amended): starting from any state whose selection satisfies
start <= end <= text.len() and whose selected_word_range, when present,
also ends within the text, any sequence of move_to / select_to calls with
arbitrary offsets clamps each offset and preserves
start <= end <= text.len(). -/
theorem c3_amended_selection_invariant (s : InputState) (h : SelInvariant s)
    (cmds : List SelCmd) : SelInvariant (applySelCmds s cmds) := by
  induction cmds generalizing s with
  | nil => exact h
  | cons c rest ih =>
    cases c with
    | moveTo o => exact ih (s.moveTo o) (moveTo_selInvariant s o h)
    | selectTo o => exact ih (s.selectTo o) (selectTo_selInvariant s o h)

/-- Witness for C3 (amended) with out-of-range offsets 99 and 100 on a
two byte text. -/
theorem c3_amended_selection_invariant_witness :
    SelInvariant c3Start ∧
      SelInvariant (applySelCmds c3Start [SelCmd.moveTo 99, SelCmd.selectTo 100]) := by
  have hinv : SelInvariant c3Start := ⟨by decide, by decide, by decide⟩
  exact ⟨hinv, c3_amended_selection_invariant c3Start hinv _⟩

/-- Claim C6: replace_and_mark_text_in_range with nonempty new text sets
marked_range to range.start .. range.start + new_text.len() without
committing; with empty new text while a marked range exists it cancels
composition (marked_range None, selection at the marked range start);
and committing through replace_text_in_range clears marked_range and
positions the selection by UTF-8 byte length: composing あ at 0..0 and
committing あ yields marked_range None and selection 3..3. -/
theorem c6_ime_marked_range :
    (∀ (s : InputState) r16 t nsel now,
      s.disabled = false →
      s.isValidInput (s.pendingText (s.resolveRange r16) t) = true →
      t ≠ [] →
      (s.replaceAndMarkTextInRange r16 t nsel now).1.markedRange =
        some ((s.resolveRange r16).1, (s.resolveRange r16).1 + utf8Len t)) ∧
    (∀ (s : InputState) (m : Nat × Nat) now,
      s.disabled = false → s.markedRange = some m →
      s.isValidInput (s.pendingText m []) = true →
      (s.replaceAndMarkTextInRange none [] none now).1.markedRange = none ∧
      (s.replaceAndMarkTextInRange none [] none now).1.selStart = m.1 ∧
      (s.replaceAndMarkTextInRange none [] none now).1.selEnd = m.1) ∧
    (c6Compose.markedRange = some (0, 3) ∧ c6Compose.text = ("あ").toList ∧
      c6Commit.markedRange = none ∧ c6Commit.selStart = 3 ∧ c6Commit.selEnd = 3 ∧
      c6Commit.text = ("あ").toList) := by
  refine ⟨?_, ?_, by decide⟩
  · intro s r16 t nsel now hd hv ht
    have hte : t.isEmpty = false := by
      cases t with
      | nil => exact absurd rfl ht
      | cons a l => rfl
    obtain ⟨hh, heq⟩ := pushHistory_eq s (s.resolveRange r16) t now
    unfold InputState.replaceAndMarkTextInRange
    dsimp only
    rw [hd]
    simp only [Bool.false_eq_true, if_false, hv, Bool.not_true, hte, heq]
  · intro s m now hd hm hv
    have hr : s.resolveRange none = m := by
      unfold InputState.resolveRange
      rw [hm]
    obtain ⟨hh, heq⟩ := pushHistory_eq s m [] now
    unfold InputState.replaceAndMarkTextInRange
    dsimp only
    rw [hd]
    simp only [Bool.false_eq_true, if_false, hr, hv, Bool.not_true, List.isEmpty_nil, heq]
    simp

theorem utf8Len_append (a b : List Char) : utf8Len (a ++ b) = utf8Len a + utf8Len b := by
  induction a with
  | nil => simp [utf8Len]
  | cons c cs ih =>
    simp [utf8Len, ih]
    omega

theorem utf8Len_reverse (l : List Char) : utf8Len l.reverse = utf8Len l := by
  induction l with
  | nil => rfl
  | cons c cs ih =>
    simp [List.reverse_cons, utf8Len_append, utf8Len, ih]
    omega

theorem utf8Len_eq_zero {l : List Char} : utf8Len l = 0 ↔ l = [] := by
  cases l with
  | nil => simp [utf8Len]
  | cons c cs =>
    have := lenUtf8_pos c
    simp [utf8Len]
    omega

theorem takeBytes_zero (l : List Char) : takeBytes l 0 = [] := by
  cases l <;> rfl

theorem dropBytes_zero (l : List Char) : dropBytes l 0 = l := by
  cases l <;> rfl

theorem takeBytes_cons_ne (c : Char) (cs : List Char) (n : Nat) (h : n ≠ 0) :
    takeBytes (c :: cs) n = c :: takeBytes cs (n - lenUtf8 c) := by
  cases n with
  | zero => exact absurd rfl h
  | succ m => rfl

theorem dropBytes_cons_ne (c : Char) (cs : List Char) (n : Nat) (h : n ≠ 0) :
    dropBytes (c :: cs) n = dropBytes cs (n - lenUtf8 c) := by
  cases n with
  | zero => exact absurd rfl h
  | succ m => rfl

theorem takeBytes_append (pre post : List Char) :
    takeBytes (pre ++ post) (utf8Len pre) = pre := by
  induction pre with
  | nil => exact takeBytes_zero post
  | cons c cs ih =>
    have hc := lenUtf8_pos c
    simp only [List.cons_append, utf8Len]
    rw [takeBytes_cons_ne _ _ _ (by omega), Nat.add_sub_cancel_left, ih]

theorem dropBytes_append (pre post : List Char) :
    dropBytes (pre ++ post) (utf8Len pre) = post := by
  induction pre with
  | nil => exact dropBytes_zero post
  | cons c cs ih =>
    have hc := lenUtf8_pos c
    simp only [List.cons_append, utf8Len]
    rw [dropBytes_cons_ne _ _ _ (by omega), Nat.add_sub_cancel_left, ih]

theorem utf8Boundaries_zero_mem (t : List Char) : 0 ∈ utf8Boundaries t := by
  cases t <;> simp [utf8Boundaries]

theorem utf8Len_mem_boundaries (pre post : List Char) :
    utf8Len pre ∈ utf8Boundaries (pre ++ post) := by
  induction pre with
  | nil => simpa [utf8Len] using utf8Boundaries_zero_mem post
  | cons c cs ih =>
    simp only [List.cons_append, utf8Boundaries, utf8Len]
    exact List.mem_cons.mpr (Or.inr (List.mem_map.mpr ⟨utf8Len cs, ih, rfl⟩))

theorem snapOffset_boundary (pre post : List Char) :
    snapOffset (pre ++ post) (utf8Len pre) = utf8Len pre :=
  offset_roundtrip _ _ (utf8Len_mem_boundaries pre post)

theorem snapOffset_zero (t : List Char) : snapOffset t 0 = 0 := by
  unfold snapOffset
  rw [offsetToUtf16_zero, offsetFromUtf16_zero]

theorem sliceSnap_all_prefix (pre post : List Char) :
    sliceSnap (pre ++ post) 0 (utf8Len pre) = pre := by
  unfold sliceSnap
  rw [snapOffset_zero, snapOffset_boundary]
  dsimp only
  rw [dropBytes_zero, Nat.sub_zero]
  exact takeBytes_append pre post

theorem sliceSnap_all_suffix (pre post : List Char) :
    sliceSnap (pre ++ post) (utf8Len pre) (utf8Len (pre ++ post)) = post := by
  unfold sliceSnap
  have h2 : snapOffset (pre ++ post) (utf8Len (pre ++ post)) = utf8Len (pre ++ post) := by
    simpa using snapOffset_boundary (pre ++ post) []
  rw [snapOffset_boundary, h2]
  dsimp only
  rw [dropBytes_append, utf8Len_append, Nat.add_sub_cancel_left]
  simpa using takeBytes_append post []

/-- Computation of select_word at a character boundary where the word run
is nonempty, for any alphanumeric classification. -/
theorem selectWord_eq (alnum : Char → Bool) (s : InputState) (pre post : List Char)
    (ht : s.text = pre ++ post)
    (hne : utf8Len pre - utf8Len (pre.reverse.takeWhile (isWord alnum)) ≠
      utf8Len pre + utf8Len (post.takeWhile (isWord alnum))) :
    InputState.selectWord alnum s (utf8Len pre) =
      { s with
        selStart := utf8Len pre - utf8Len (pre.reverse.takeWhile (isWord alnum)),
        selEnd := utf8Len pre + utf8Len (post.takeWhile (isWord alnum)),
        selectedWordRange := some
          (utf8Len pre - utf8Len (pre.reverse.takeWhile (isWord alnum)),
            utf8Len pre + utf8Len (post.takeWhile (isWord alnum))) } := by
  unfold InputState.selectWord
  rw [ht, sliceSnap_all_prefix, sliceSnap_all_suffix]
  dsimp only
  rw [if_neg hne]

/-- Claim C7: select_word expands the selection to the maximal run of
word characters (alphanumeric per the external Unicode classification,
or underscore) containing the offset — on hello world, select_word 0
selects 0..5 for every classification agreeing with the ASCII table on
its characters, as the Unicode one does — records it as
selected_word_range, and subsequent select_to calls never shrink the
selection below that word range. -/
theorem c7_select_word :
    (∀ alnum : Char → Bool,
      (∀ c ∈ ("hello world").toList, alnum c = c.isAlphanum) →
      (InputState.selectWord alnum c7State 0).selStart = 0 ∧
      (InputState.selectWord alnum c7State 0).selEnd = 5 ∧
      (InputState.selectWord alnum c7State 0).selectedWordRange = some (0, 5)) ∧
    (∀ (alnum : Char → Bool) (s : InputState) (pre post : List Char),
      s.text = pre ++ post →
      (pre.reverse.takeWhile (isWord alnum) ≠ [] ∨
        post.takeWhile (isWord alnum) ≠ []) →
      ∃ pre2 run1 run2 post2,
        pre = pre2 ++ run1 ∧ post = run2 ++ post2 ∧
        (∀ c ∈ run1, isWord alnum c = true) ∧ (∀ c ∈ run2, isWord alnum c = true) ∧
        (∀ c, pre2.getLast? = some c → isWord alnum c = false) ∧
        (∀ c, post2.head? = some c → isWord alnum c = false) ∧
        (InputState.selectWord alnum s (utf8Len pre)).selStart = utf8Len pre2 ∧
        (InputState.selectWord alnum s (utf8Len pre)).selEnd =
          utf8Len pre2 + utf8Len run1 + utf8Len run2 ∧
        (InputState.selectWord alnum s (utf8Len pre)).selectedWordRange =
          some ((InputState.selectWord alnum s (utf8Len pre)).selStart,
            (InputState.selectWord alnum s (utf8Len pre)).selEnd) ∧
        (InputState.selectWord alnum s (utf8Len pre)).selStart ≤ utf8Len pre ∧
        utf8Len pre ≤ (InputState.selectWord alnum s (utf8Len pre)).selEnd) ∧
    (∀ (s : InputState) (wr : Nat × Nat) (o : Nat), s.selectedWordRange = some wr →
      (s.selectTo o).selStart ≤ wr.1 ∧ wr.2 ≤ (s.selectTo o).selEnd) := by
  refine ⟨?_, ?_, fun s wr o h => selectTo_word_bounds s o wr h⟩
  · intro alnum h
    have h1 : isWord alnum ('h') = true := by
      unfold isWord
      rw [h ('h') (by decide)]
      decide
    have h2 : isWord alnum ('e') = true := by
      unfold isWord
      rw [h ('e') (by decide)]
      decide
    have h3 : isWord alnum ('l') = true := by
      unfold isWord
      rw [h ('l') (by decide)]
      decide
    have h4 : isWord alnum ('o') = true := by
      unfold isWord
      rw [h ('o') (by decide)]
      decide
    have hsp : ¬ (isWord alnum (' ') = true) := by
      unfold isWord
      rw [h (' ') (by decide)]
      decide
    have htake : List.takeWhile (isWord alnum) (("hello world").toList)
        = ("hello").toList := by
      have hlist : ("hello world").toList =
          'h' :: 'e' :: 'l' :: 'l' :: 'o' :: ' ' :: ("world").toList := by decide
      rw [hlist, List.takeWhile_cons_of_pos h1, List.takeWhile_cons_of_pos h2,
        List.takeWhile_cons_of_pos h3, List.takeWhile_cons_of_pos h3,
        List.takeWhile_cons_of_pos h4, List.takeWhile_cons_of_neg hsp]
      decide
    have ht : c7State.text = [] ++ ("hello world").toList := rfl
    have hne2 : utf8Len ([] : List Char) -
        utf8Len (([] : List Char).reverse.takeWhile (isWord alnum)) ≠
        utf8Len ([] : List Char) +
          utf8Len ((("hello world").toList).takeWhile (isWord alnum)) := by
      rw [htake]
      have hz0 : utf8Len (([] : List Char).reverse.takeWhile (isWord alnum)) = 0 := rfl
      rw [hz0]
      decide
    have hsw := selectWord_eq alnum c7State [] (("hello world").toList) ht hne2
    have hz : utf8Len ([] : List Char) = 0 := rfl
    rw [hz] at hsw
    have hx : utf8Len (([] : List Char).reverse.takeWhile (isWord alnum)) = 0 := rfl
    have hy : utf8Len ((("hello world").toList).takeWhile (isWord alnum)) = 5 := by
      rw [htake]
      decide
    rw [hx, hy] at hsw
    rw [hsw]
    exact ⟨rfl, rfl, rfl⟩
  · intro alnum s pre post ht hrun
    have hsplit1 : pre.reverse.takeWhile (isWord alnum)
        ++ pre.reverse.dropWhile (isWord alnum) = pre.reverse :=
      List.takeWhile_append_dropWhile (isWord alnum) pre.reverse
    have hpre : pre = (pre.reverse.dropWhile (isWord alnum)).reverse
        ++ (pre.reverse.takeWhile (isWord alnum)).reverse := by
      calc pre = pre.reverse.reverse := (List.reverse_reverse pre).symm
      _ = (pre.reverse.takeWhile (isWord alnum)
          ++ pre.reverse.dropWhile (isWord alnum)).reverse := by
          rw [hsplit1]
      _ = (pre.reverse.dropWhile (isWord alnum)).reverse
          ++ (pre.reverse.takeWhile (isWord alnum)).reverse := List.reverse_append _ _
    have hlen1 : utf8Len pre = utf8Len (pre.reverse.dropWhile (isWord alnum))
        + utf8Len (pre.reverse.takeWhile (isWord alnum)) := by
      conv_lhs => rw [hpre]
      rw [utf8Len_append]
      simp only [utf8Len_reverse]
    have hne : utf8Len pre - utf8Len (pre.reverse.takeWhile (isWord alnum)) ≠
        utf8Len pre + utf8Len (post.takeWhile (isWord alnum)) := by
      rcases hrun with h | h
      · have h0 : utf8Len (pre.reverse.takeWhile (isWord alnum)) ≠ 0 :=
          fun hh => h (utf8Len_eq_zero.mp hh)
        omega
      · have h0 : utf8Len (post.takeWhile (isWord alnum)) ≠ 0 :=
          fun hh => h (utf8Len_eq_zero.mp hh)
        omega
    have hsw := selectWord_eq alnum s pre post ht hne
    refine ⟨(pre.reverse.dropWhile (isWord alnum)).reverse,
      (pre.reverse.takeWhile (isWord alnum)).reverse,
      post.takeWhile (isWord alnum), post.dropWhile (isWord alnum),
      hpre, (List.takeWhile_append_dropWhile (isWord alnum) post).symm,
      ?_, ?_, ?_, ?_, ?_, ?_, ?_, ?_, ?_⟩
    · intro c hc
      exact List.mem_takeWhile_imp (List.mem_reverse.mp hc)
    · intro c hc
      exact List.mem_takeWhile_imp hc
    · intro c hc
      rw [List.getLast?_reverse] at hc
      have hh := List.head?_dropWhile_not (isWord alnum) pre.reverse
      rw [hc] at hh
      exact hh
    · intro c hc
      have hh := List.head?_dropWhile_not (isWord alnum) post
      rw [hc] at hh
      exact hh
    · rw [hsw]
      dsimp only
      simp only [utf8Len_reverse]
      omega
    · rw [hsw]
      dsimp only
      simp only [utf8Len_reverse]
      omega
    · rw [hsw]
    · rw [hsw]
      dsimp only
      omega
    · rw [hsw]
      dsimp only
      omega

/-- Witness for C7: the hello world scenario instantiated at the ASCII
alphanumeric table (which agrees with the Unicode classification on that
text), and the maximal-run part at the text a b, offset 1. -/
theorem c7_select_word_witness :
    ((∀ c ∈ ("hello world").toList, Char.isAlphanum c = c.isAlphanum) ∧
      (InputState.selectWord Char.isAlphanum c7State 0).selStart = 0 ∧
      (InputState.selectWord Char.isAlphanum c7State 0).selEnd = 5 ∧
      (InputState.selectWord Char.isAlphanum c7State 0).selectedWordRange
        = some (0, 5)) ∧
      (∃ pre2 run1 run2 post2, [Char.ofNat 97] = pre2 ++ run1 ∧
        [Char.ofNat 32, Char.ofNat 98] = run2 ++ post2 ∧
        (∀ c ∈ run1, isWord Char.isAlphanum c = true) ∧
        (∀ c ∈ run2, isWord Char.isAlphanum c = true) ∧
        (∀ c, pre2.getLast? = some c → isWord Char.isAlphanum c = false) ∧
        (∀ c, post2.head? = some c → isWord Char.isAlphanum c = false) ∧
        (InputState.selectWord Char.isAlphanum
          ({ initialInputState with text := ("a b").toList } : InputState)
          (utf8Len [Char.ofNat 97])).selStart = utf8Len pre2 ∧
        (InputState.selectWord Char.isAlphanum
          ({ initialInputState with text := ("a b").toList } : InputState)
          (utf8Len [Char.ofNat 97])).selEnd
          = utf8Len pre2 + utf8Len run1 + utf8Len run2 ∧
        (InputState.selectWord Char.isAlphanum
          ({ initialInputState with text := ("a b").toList } : InputState)
          (utf8Len [Char.ofNat 97])).selectedWordRange =
          some ((InputState.selectWord Char.isAlphanum
            ({ initialInputState with text := ("a b").toList } : InputState)
            (utf8Len [Char.ofNat 97])).selStart,
            (InputState.selectWord Char.isAlphanum
              ({ initialInputState with text := ("a b").toList } : InputState)
              (utf8Len [Char.ofNat 97])).selEnd) ∧
        (InputState.selectWord Char.isAlphanum
          ({ initialInputState with text := ("a b").toList } : InputState)
          (utf8Len [Char.ofNat 97])).selStart ≤ utf8Len [Char.ofNat 97] ∧
        utf8Len [Char.ofNat 97] ≤
          (InputState.selectWord Char.isAlphanum
            ({ initialInputState with text := ("a b").toList } : InputState)
            (utf8Len [Char.ofNat 97])).selEnd) :=
  ⟨⟨fun c _ => rfl, c7_select_word.1 Char.isAlphanum (fun c _ => rfl)⟩,
    c7_select_word.2.1 Char.isAlphanum
      { initialInputState with text := ("a b").toList }
      [Char.ofNat 97] [Char.ofNat 32, Char.ofNat 98] (by decide) (Or.inl (by decide))⟩

theorem clustersLen_cons (g : List Char) (gs : List (List Char)) :
    clustersLen (g :: gs) = utf8Len g + clustersLen gs := by
  unfold clustersLen
  rw [List.flatten_cons, utf8Len_append]

theorem getD_append_left (l l2 : List Nat) (j : Nat) (h : j < l.length) :
    (l ++ l2).getD j 0 = l.getD j 0 := by
  induction l generalizing j with
  | nil => simp at h
  | cons a rest ih =>
    cases j with
    | zero => rfl
    | succ j2 => simpa using ih j2 (by simpa using h)

theorem getD_mem_list (l : List Nat) (j : Nat) (h : j < l.length) : l.getD j 0 ∈ l := by
  induction l generalizing j with
  | nil => simp at h
  | cons a rest ih =>
    cases j with
    | zero => exact List.mem_cons_self a rest
    | succ j2 => exact List.mem_cons_of_mem a (ih j2 (by simpa using h))

theorem mem_graphemeIndicesGo_ge (t : List (List Char)) :
    ∀ (acc x : Nat), x ∈ graphemeIndicesGo t acc → acc ≤ x := by
  induction t with
  | nil =>
    intro acc x h
    simp [graphemeIndicesGo] at h
  | cons g gs ih =>
    intro acc x h
    simp only [graphemeIndicesGo, List.mem_cons] at h
    rcases h with rfl | h
    · exact Nat.le_refl x
    · exact Nat.le_trans (Nat.le_add_right acc (utf8Len g)) (ih _ _ h)

theorem mem_graphemeIndicesGo_le (t : List (List Char)) :
    ∀ (acc x : Nat), x ∈ graphemeIndicesGo t acc → x ≤ acc + clustersLen t := by
  induction t with
  | nil =>
    intro acc x h
    simp [graphemeIndicesGo] at h
  | cons g gs ih =>
    intro acc x h
    simp only [graphemeIndicesGo, List.mem_cons] at h
    rw [clustersLen_cons]
    rcases h with rfl | h
    · exact Nat.le_add_right x _
    · have := ih (acc + utf8Len g) x h
      omega

/-- Stepping lemma for next_boundary over the boundary list of a cluster
text: at boundary number i, the search finds boundary number i + 1. -/
theorem graphemeGo_next (t : List (List Char)) :
    (∀ g ∈ t, g ≠ []) → ∀ (acc i : Nat),
      i + 1 < (graphemeIndicesGo t acc).length + 1 →
      ((graphemeIndicesGo t acc ++ [acc + clustersLen t]).getD i 0 <
        (graphemeIndicesGo t acc ++ [acc + clustersLen t]).getD (i + 1) 0) ∧
      ((graphemeIndicesGo t acc).find?
          (fun idx => decide
            ((graphemeIndicesGo t acc ++ [acc + clustersLen t]).getD i 0 < idx))).getD
          (acc + clustersLen t) =
        (graphemeIndicesGo t acc ++ [acc + clustersLen t]).getD (i + 1) 0 := by
  induction t with
  | nil =>
    intro hne acc i hi
    simp [graphemeIndicesGo] at hi
  | cons g gs ih =>
    intro hne acc i hi
    have hg : g ≠ [] := hne g (List.mem_cons_self g gs)
    have hgpos : 0 < utf8Len g :=
      Nat.pos_of_ne_zero (fun h0 => hg (utf8Len_eq_zero.mp h0))
    have hne2 : ∀ x ∈ gs, x ≠ [] := fun x hx => hne x (List.mem_cons_of_mem g hx)
    have hB : graphemeIndicesGo (g :: gs) acc ++ [acc + clustersLen (g :: gs)] =
        acc :: (graphemeIndicesGo gs (acc + utf8Len g) ++
          [acc + utf8Len g + clustersLen gs]) := by
      simp [graphemeIndicesGo, clustersLen_cons, Nat.add_assoc]
    cases i with
    | zero =>
      constructor
      · rw [hB]
        simp only [List.getD_cons_zero, List.getD_cons_succ]
        cases hgs : graphemeIndicesGo gs (acc + utf8Len g) with
        | nil =>
          simp only [List.nil_append, List.getD_cons_zero]
          omega
        | cons b rest =>
          have hb : acc + utf8Len g ≤ b := by
            refine mem_graphemeIndicesGo_ge gs (acc + utf8Len g) b ?_
            rw [hgs]
            exact List.mem_cons_self b rest
          simp only [List.cons_append, List.getD_cons_zero]
          omega
      · simp only [hB, List.getD_cons_zero, List.getD_cons_succ]
        show ((graphemeIndicesGo (g :: gs) acc).find? (fun idx => decide (acc < idx))).getD
            (acc + clustersLen (g :: gs)) = _
        simp only [graphemeIndicesGo]
        rw [List.find?_cons_of_neg _ (by simp)]
        cases hgs : graphemeIndicesGo gs (acc + utf8Len g) with
        | nil =>
          simp only [List.find?_nil, Option.getD_none, List.nil_append, List.getD_cons_zero]
          rw [clustersLen_cons]
          omega
        | cons b rest =>
          have hb : acc + utf8Len g ≤ b := by
            refine mem_graphemeIndicesGo_ge gs (acc + utf8Len g) b ?_
            rw [hgs]
            exact List.mem_cons_self b rest
          rw [List.find?_cons_of_pos _ (by simp only [decide_eq_true_eq]; omega)]
          simp
    | succ j =>
      have hlen : (graphemeIndicesGo (g :: gs) acc).length =
          (graphemeIndicesGo gs (acc + utf8Len g)).length + 1 := by
        simp [graphemeIndicesGo]
      have hiGs : j + 1 < (graphemeIndicesGo gs (acc + utf8Len g)).length + 1 := by
        omega
      have ihj := ih hne2 (acc + utf8Len g) j hiGs
      have hj : j < (graphemeIndicesGo gs (acc + utf8Len g)).length := by omega
      have hoMem : (graphemeIndicesGo gs (acc + utf8Len g) ++
          [acc + utf8Len g + clustersLen gs]).getD j 0 ∈
            graphemeIndicesGo gs (acc + utf8Len g) := by
        rw [getD_append_left _ _ j hj]
        exact getD_mem_list _ j hj
      have hoGe : acc + utf8Len g ≤ (graphemeIndicesGo gs (acc + utf8Len g) ++
          [acc + utf8Len g + clustersLen gs]).getD j 0 :=
        mem_graphemeIndicesGo_ge gs (acc + utf8Len g) _ hoMem
      constructor
      · rw [hB]
        simpa only [List.getD_cons_succ] using ihj.1
      · simp only [hB, List.getD_cons_succ]
        show ((graphemeIndicesGo (g :: gs) acc).find? _).getD (acc + clustersLen (g :: gs)) = _
        simp only [graphemeIndicesGo]
        rw [List.find?_cons_of_neg _ (by simp only [decide_eq_true_eq]; omega)]
        rw [clustersLen_cons, ← Nat.add_assoc]
        exact ihj.2

/-- Claim C8: for every grapheme boundary strictly before the end of the
text, next_boundary returns the immediately following boundary, which is
strictly greater; at the end of the text it returns the end itself. -/
theorem c8_next_boundary (t : List (List Char)) (hne : ∀ g ∈ t, g ≠ []) :
    (∀ i, i + 1 < (graphemeBoundaries t).length →
      (graphemeBoundaries t).getD i 0 < (graphemeBoundaries t).getD (i + 1) 0 ∧
      nextBoundary (graphemeIndices t) (clustersLen t)
          ((graphemeBoundaries t).getD i 0) =
        (graphemeBoundaries t).getD (i + 1) 0) ∧
    nextBoundary (graphemeIndices t) (clustersLen t) (clustersLen t) = clustersLen t := by
  constructor
  · intro i hi
    have hi2 : i + 1 < (graphemeIndicesGo t 0).length + 1 := by
      have : (graphemeBoundaries t).length = (graphemeIndicesGo t 0).length + 1 := by
        simp [graphemeBoundaries, graphemeIndices]
      omega
    have h := graphemeGo_next t hne 0 i hi2
    rw [Nat.zero_add] at h
    exact ⟨h.1, h.2⟩
  · unfold nextBoundary
    have hnone : (graphemeIndices t).find?
        (fun idx => decide (clustersLen t < idx)) = none := by
      rw [List.find?_eq_none]
      intro x hx
      have := mem_graphemeIndicesGo_le t 0 x hx
      simp
      omega
    rw [hnone]
    rfl

/-- Witness for C8 on the two cluster text a b. -/
theorem c8_next_boundary_witness :
    (∀ g ∈ c8Text, g ≠ []) ∧
      ((graphemeBoundaries c8Text).getD 0 0 < (graphemeBoundaries c8Text).getD 1 0 ∧
        nextBoundary (graphemeIndices c8Text) (clustersLen c8Text)
            ((graphemeBoundaries c8Text).getD 0 0) =
          (graphemeBoundaries c8Text).getD 1 0) ∧
      nextBoundary (graphemeIndices c8Text) (clustersLen c8Text) (clustersLen c8Text)
        = clustersLen c8Text :=
  ⟨by decide, (c8_next_boundary c8Text (by decide)).1 0 (by decide),
    (c8_next_boundary c8Text (by decide)).2⟩

/-- Witness for C6 at the あ composition. -/
theorem c6_ime_marked_range_witness :
    ((initialInputState.replaceAndMarkTextInRange (some (0, 0)) (("あ").toList) none 0).1.markedRange
        = some ((initialInputState.resolveRange (some (0, 0))).1,
            (initialInputState.resolveRange (some (0, 0))).1 + utf8Len (("あ").toList))) ∧
      ((c6Compose.replaceAndMarkTextInRange none [] none 2).1.markedRange = none ∧
        (c6Compose.replaceAndMarkTextInRange none [] none 2).1.selStart = 0 ∧
        (c6Compose.replaceAndMarkTextInRange none [] none 2).1.selEnd = 0) := by
  refine ⟨c6_ime_marked_range.1 initialInputState (some (0, 0)) (("あ").toList) none 0
    rfl rfl (by decide), ?_⟩
  exact c6_ime_marked_range.2.1 c6Compose (0, 3) 2 rfl rfl rfl

/-- Witness for C5 (amended) at a concrete disabled state. -/
theorem c5_amended_disabled_noops_witness :
    c5Disabled.disabled = true ∧ c5Disabled.history.ignore = false ∧
      (c5Disabled.replaceTextInRange none (("x").toList) 0 = (c5Disabled, []) ∧
        (c5Disabled.setValue (("y").toList) 0).1.text = c5Disabled.text ∧
        c5Disabled.undo.1.text = c5Disabled.text) :=
  ⟨rfl, rfl, by
    have h := c5_amended_disabled_noops c5Disabled rfl rfl
    exact ⟨h.1 none (("x").toList) 0, (h.2.2.2.2.2.1 (("y").toList) 0).1,
      h.2.2.2.2.2.2.2.2.1.1⟩⟩

theorem up_events (seg : List Char → List Nat) (s : InputState) :
    (s.up seg).2 = if s.text.isEmpty then [InputEvent.emptyTextUp] else [] := by
  unfold InputState.up
  dsimp only
  split <;> rfl

theorem down_events (seg : List Char → List Nat) (s : InputState) :
    (s.down seg).2 = [] := by
  unfold InputState.down
  dsimp only
  split <;> rfl

/-- move_vertical with the cursor on the first visual line and direction
up goes to the start of the buffer. -/
theorem moveVertical_up_first (s : InputState) (lines : List LineModel)
    (bounds : BoundsModel) (p : Int × Int) (hs : s.isSingleLine = false)
    (hl : s.lastLayout = some lines) (hb : s.lastBounds = some bounds)
    (hp : lineAndPositionForOffset s.cursorOffset lines s.lastLineHeight = (0, 0, some p)) :
    s.moveVertical (-1) = s.moveTo 0 := by
  unfold InputState.moveVertical
  rw [if_neg (by simp [hs])]
  rw [hl, hb]
  dsimp only
  rw [hp]
  dsimp only
  rw [if_pos ⟨rfl, rfl, by norm_num⟩]

/-- move_vertical with the cursor on the last visual line (last sub-line)
and direction down leaves the state unchanged. -/
theorem moveVertical_down_last (s : InputState) (lines : List LineModel)
    (bounds : BoundsModel) (p : Int × Int) (hs : s.isSingleLine = false)
    (hl : s.lastLayout = some lines) (hb : s.lastBounds = some bounds)
    (hp : lineAndPositionForOffset s.cursorOffset lines s.lastLineHeight =
      (lines.length - 1, (lines.getD (lines.length - 1) dummyLine).wrapBoundaries, some p)) :
    s.moveVertical 1 = s := by
  unfold InputState.moveVertical
  rw [if_neg (by simp [hs])]
  rw [hl, hb]
  dsimp only
  rw [hp]
  dsimp only
  have c1 : ¬((1 : Int) = -1 ∧ lines.length - 1 = 0 ∧
      ((lines.getD (lines.length - 1) dummyLine).wrapBoundaries : Int) + 1 < 0) := by
    intro h
    norm_num at h
  rw [if_neg c1]
  have c2 : ¬(((lines.getD (lines.length - 1) dummyLine).wrapBoundaries : Int) + 1 < 0) := by
    omega
  rw [if_neg c2]
  have c3 : ((lines.getD (lines.length - 1) dummyLine).wrapBoundaries : Int) + 1 >
      ((lines.getD (lines.length - 1) dummyLine).wrapBoundaries : Int) := by omega
  rw [if_pos c3]
  have c4 : ¬(lines.length - 1 < lines.length - 1) := by omega
  rw [if_neg c4]
  dsimp only
  rw [if_pos ⟨rfl, rfl⟩]

/-- Counterexample to claim C9 as stated: with an empty buffer in the
chat-style auto-grow mode and a laid-out line, down() emits no event at
all; the empty-buffer-up signal is emitted only by up(). -/
theorem c9_counterexample :
    c9Empty.text.isEmpty = true ∧ (c9Empty.down charSeg).2 = [] ∧
      (c9Empty.up charSeg).2 = [InputEvent.emptyTextUp] :=
  ⟨rfl, rfl, rfl⟩

/-- Claim C9 (amended): in multi-line modes with a laid-out buffer,
moving up from the first visual line moves the cursor to offset 0, and
moving down from the last visual line is a complete no-op; the
empty-buffer-up signal is emitted by the up movement exactly when the
buffer is empty, and down never emits it. -/
theorem c9_vertical_edges :
    (∀ (seg : List Char → List Nat) (s : InputState) lines bounds (p : Int × Int),
      s.isSingleLine = false → s.selectedRangeIsEmpty = true →
      s.lastLayout = some lines → s.lastBounds = some bounds →
      lineAndPositionForOffset s.cursorOffset lines s.lastLineHeight = (0, 0, some p) →
      (s.up seg).1.selStart = 0 ∧ (s.up seg).1.selEnd = 0) ∧
    (∀ (seg : List Char → List Nat) (s : InputState) lines bounds (p : Int × Int),
      s.isSingleLine = false → s.selectedRangeIsEmpty = true →
      s.lastLayout = some lines → s.lastBounds = some bounds →
      lineAndPositionForOffset s.cursorOffset lines s.lastLineHeight =
        (lines.length - 1, (lines.getD (lines.length - 1) dummyLine).wrapBoundaries, some p) →
      s.down seg = (s, [])) ∧
    (∀ (seg : List Char → List Nat) (s : InputState),
      (s.down seg).2 = [] ∧
      (s.up seg).2 = if s.text.isEmpty then [InputEvent.emptyTextUp] else []) := by
  refine ⟨?_, ?_, fun seg s => ⟨down_events seg s, up_events seg s⟩⟩
  · intro seg s lines bounds p hs hsel hl hb hp
    have hmv := moveVertical_up_first s lines bounds p hs hl hb hp
    have hup : (s.up seg).1 = s.moveTo 0 := by
      unfold InputState.up
      dsimp only
      rw [if_neg (by simp [hs])]
      rw [hsel]
      dsimp only
      exact hmv
    obtain ⟨px, he⟩ := moveTo_eq s 0
    rw [hup, he]
    simp
  · intro seg s lines bounds p hs hsel hl hb hp
    have hmv := moveVertical_down_last s lines bounds p hs hl hb hp
    unfold InputState.down
    rw [if_neg (by simp [hs])]
    dsimp only
    simp only [hsel, Bool.not_true, Bool.false_eq_true, if_false]
    rw [hmv]

/-- Witness for C9 (amended): a one line layout where the single line is
both first and last; up moves to 0 and down is a no-op. -/
theorem c9_vertical_edges_witness :
    (c9WitState.isSingleLine = false ∧ c9WitState.selectedRangeIsEmpty = true ∧
      lineAndPositionForOffset c9WitState.cursorOffset [c9WitLine]
        c9WitState.lastLineHeight = (0, 0, some (1, 0))) ∧
      ((c9WitState.up charSeg).1.selStart = 0 ∧ (c9WitState.up charSeg).1.selEnd = 0) ∧
      c9WitState.down charSeg = (c9WitState, []) := by
  refine ⟨⟨rfl, rfl, rfl⟩, ?_, ?_⟩
  · exact c9_vertical_edges.1 charSeg c9WitState [c9WitLine] ⟨(0, 0)⟩ (1, 0)
      rfl rfl rfl rfl rfl
  · exact c9_vertical_edges.2.1 charSeg c9WitState [c9WitLine] ⟨(0, 0)⟩ (1, 0)
      rfl rfl rfl rfl rfl

theorem replaceTextInRange_events (s : InputState) (r16 : Option (Nat × Nat))
    (t : List Char) (now : Nat) :
    (s.replaceTextInRange r16 t now).2 = [] ∨
      ∃ v, (s.replaceTextInRange r16 t now).2 = [InputEvent.change v] := by
  unfold InputState.replaceTextInRange
  dsimp only
  split
  · exact Or.inl rfl
  · split
    · exact Or.inl rfl
    · exact Or.inr ⟨_, rfl⟩

theorem replaceAndMark_events (s : InputState) (r16 : Option (Nat × Nat))
    (t : List Char) (nsel : Option (Nat × Nat)) (now : Nat) :
    (s.replaceAndMarkTextInRange r16 t nsel now).2 = [] ∨
      ∃ v, (s.replaceAndMarkTextInRange r16 t nsel now).2 = [InputEvent.change v] := by
  unfold InputState.replaceAndMarkTextInRange
  dsimp only
  split
  · exact Or.inl rfl
  · split
    · exact Or.inl rfl
    · exact Or.inr ⟨_, rfl⟩

theorem notMem_emptyUp_of_events {evs : List InputEvent}
    (h : evs = [] ∨ ∃ v, evs = [InputEvent.change v]) :
    InputEvent.emptyTextUp ∉ evs := by
  rcases h with rfl | ⟨v, rfl⟩ <;> simp

theorem undoApply_cons (p : InputState × List InputEvent) (c : Change)
    (chs : List Change) :
    InputState.undoApply p (c :: chs) =
      InputState.undoApply
        ((p.1.replaceTextInRange (some (p.1.rangeToUtf16 c.newRange)) c.oldText 0).1,
          p.2 ++ (p.1.replaceTextInRange (some (p.1.rangeToUtf16 c.newRange)) c.oldText 0).2)
        chs := rfl

theorem redoApply_cons (p : InputState × List InputEvent) (c : Change)
    (chs : List Change) :
    InputState.redoApply p (c :: chs) =
      InputState.redoApply
        ((p.1.replaceTextInRange (some (p.1.rangeToUtf16 c.oldRange)) c.newText 0).1,
          p.2 ++ (p.1.replaceTextInRange (some (p.1.rangeToUtf16 c.oldRange)) c.newText 0).2)
        chs := rfl

theorem undoApply_noEmptyUp (chs : List Change) (p : InputState × List InputEvent)
    (h : InputEvent.emptyTextUp ∉ p.2) :
    InputEvent.emptyTextUp ∉ (InputState.undoApply p chs).2 := by
  induction chs generalizing p with
  | nil => exact h
  | cons c rest ih =>
    rw [undoApply_cons]
    apply ih
    dsimp only
    simp only [List.mem_append]
    rintro (hx | hx)
    · exact h hx
    · exact notMem_emptyUp_of_events (replaceTextInRange_events _ _ _ _) hx

theorem redoApply_noEmptyUp (chs : List Change) (p : InputState × List InputEvent)
    (h : InputEvent.emptyTextUp ∉ p.2) :
    InputEvent.emptyTextUp ∉ (InputState.redoApply p chs).2 := by
  induction chs generalizing p with
  | nil => exact h
  | cons c rest ih =>
    rw [redoApply_cons]
    apply ih
    dsimp only
    simp only [List.mem_append]
    rintro (hx | hx)
    · exact h hx
    · exact notMem_emptyUp_of_events (replaceTextInRange_events _ _ _ _) hx

theorem undo_noEmptyUp (s : InputState) : InputEvent.emptyTextUp ∉ s.undo.2 := by
  unfold InputState.undo History.undo
  dsimp only
  cases hu : s.history.undos with
  | nil => simp
  | cons g rest =>
    dsimp only
    exact undoApply_noEmptyUp g.reverse _ (by simp)

theorem redo_noEmptyUp (s : InputState) : InputEvent.emptyTextUp ∉ s.redo.2 := by
  unfold InputState.redo History.redo
  dsimp only
  cases hu : s.history.redos with
  | nil => simp
  | cons g rest =>
    dsimp only
    exact redoApply_noEmptyUp g _ (by simp)

/-- Claim C10: up emits EmptyTextUp exactly when the buffer is empty, in
every mode (in single-line mode it still emits and then returns without
moving), and no other modelled operation — in particular not down —
ever emits EmptyTextUp. -/
theorem c10_empty_text_up_only_up :
    (∀ (seg : List Char → List Nat) (s : InputState),
      InputEvent.emptyTextUp ∈ (s.up seg).2 ↔ s.text = []) ∧
    (∀ (seg : List Char → List Nat) (s : InputState),
      s.isSingleLine = true → (s.up seg).1 = s) ∧
    (∀ (seg : List Char → List Nat) (s : InputState), (s.down seg).2 = []) ∧
    (∀ (s : InputState) r16 t now,
      InputEvent.emptyTextUp ∉ (s.replaceTextInRange r16 t now).2) ∧
    (∀ (s : InputState) r16 t nsel now,
      InputEvent.emptyTextUp ∉ (s.replaceAndMarkTextInRange r16 t nsel now).2) ∧
    (∀ (s : InputState) t now,
      InputEvent.emptyTextUp ∉ (s.insert t now).2 ∧
      InputEvent.emptyTextUp ∉ (s.replace t now).2 ∧
      InputEvent.emptyTextUp ∉ (s.setValue t now).2) ∧
    (∀ (seg : List Char → List Nat) (s : InputState) now,
      InputEvent.emptyTextUp ∉ (InputState.backspace seg s now).2 ∧
      InputEvent.emptyTextUp ∉ (InputState.delete seg s now).2) ∧
    (∀ (s : InputState) clip now, InputEvent.emptyTextUp ∉ (s.paste clip now).2) ∧
    (∀ (s : InputState),
      InputEvent.emptyTextUp ∉ s.undo.2 ∧ InputEvent.emptyTextUp ∉ s.redo.2) := by
  refine ⟨?_, ?_, fun seg s => down_events seg s, ?_, ?_, ?_, ?_, ?_,
    fun s => ⟨undo_noEmptyUp s, redo_noEmptyUp s⟩⟩
  · intro seg s
    rw [up_events]
    cases ht : s.text with
    | nil => simp
    | cons c cs => simp
  · intro seg s h
    unfold InputState.up
    dsimp only
    rw [if_pos h]
  · intro s r16 t now
    exact notMem_emptyUp_of_events (replaceTextInRange_events s r16 t now)
  · intro s r16 t nsel now
    exact notMem_emptyUp_of_events (replaceAndMark_events s r16 t nsel now)
  · intro s t now
    refine ⟨?_, ?_, ?_⟩
    · unfold InputState.insert
      dsimp only
      exact notMem_emptyUp_of_events (replaceTextInRange_events _ _ _ _)
    · unfold InputState.replace
      dsimp only
      exact notMem_emptyUp_of_events (replaceTextInRange_events _ _ _ _)
    · unfold InputState.setValue InputState.replaceText
      dsimp only
      exact notMem_emptyUp_of_events (replaceTextInRange_events _ _ _ _)
  · intro seg s now
    constructor
    · unfold InputState.backspace
      dsimp only
      exact notMem_emptyUp_of_events (replaceTextInRange_events _ _ _ _)
    · unfold InputState.delete
      dsimp only
      exact notMem_emptyUp_of_events (replaceTextInRange_events _ _ _ _)
  · intro s clip now
    cases clip with
    | none => simp [InputState.paste]
    | some t =>
      unfold InputState.paste
      dsimp only
      exact notMem_emptyUp_of_events (replaceTextInRange_events _ _ _ _)

/-- Witness for C10: on the initial single-line empty state, up emits
EmptyTextUp and does not move, and a concrete insert emits none. -/
theorem c10_empty_text_up_only_up_witness :
    (initialInputState.isSingleLine = true ∧
      (initialInputState.up charSeg).1 = initialInputState) ∧
      (InputEvent.emptyTextUp ∈ (initialInputState.up charSeg).2 ↔
        initialInputState.text = []) ∧
      InputEvent.emptyTextUp ∉ (initialInputState.insert (("x").toList) 0).2 :=
  ⟨⟨rfl, c10_empty_text_up_only_up.2.1 charSeg initialInputState rfl⟩,
    c10_empty_text_up_only_up.1 charSeg initialInputState,
    (c10_empty_text_up_only_up.2.2.2.2.2.1 initialInputState (("x").toList) 0).1⟩

end MyControl
